import Mathlib

/-!
Verification of the `corona` FTN tosser against its specification.

The development shallowly embeds the Rust sources: the address / message-id /
net-node-pair parsers and the message-body tokenizer from `src/core/mod.rs`,
the packet decoder loop from `src/ftn/pkt.rs`, the SQL message base from
`src/store/mod.rs` (relational state modelled as explicit lists of rows),
and the area-to-database-file mapping from `src/tosser/mod.rs`.
Rust strings are modelled as `List Char`, machine integers as `Nat` with
explicit range checks where the source checks them.
-/

namespace Corona

/-- Strings are modelled as lists of characters. -/
abbrev Str := List Char

/-- The SOH byte `\u{1}`, the kludge introducer. -/
def soh : Char := Char.ofNat 1

/-- Unicode `White_Space` test, as used by Rust `char::is_whitespace`. -/
def rustIsWhitespace (c : Char) : Bool :=
  (0x9 ≤ c.toNat && c.toNat ≤ 0xD) || c.toNat == 0x20 || c.toNat == 0x85 ||
  c.toNat == 0xA0 || c.toNat == 0x1680 ||
  (0x2000 ≤ c.toNat && c.toNat ≤ 0x200A) || c.toNat == 0x2028 ||
  c.toNat == 0x2029 || c.toNat == 0x202F || c.toNat == 0x205F || c.toNat == 0x3000

/-- Rust `str::trim`: strip whitespace from both ends. -/
def rustTrim (s : Str) : Str :=
  ((s.dropWhile rustIsWhitespace).reverse.dropWhile rustIsWhitespace).reverse

/-- SQLite `trim(X)`: strips space characters (0x20) only. -/
def sqlTrim (s : Str) : Str :=
  ((s.dropWhile (· == ' ')).reverse.dropWhile (· == ' ')).reverse

/-- Rust `char::to_ascii_lowercase`, mapped over a string. -/
def asciiLowerChar (c : Char) : Char :=
  if 'A' ≤ c ∧ c ≤ 'Z' then Char.ofNat (c.toNat + 32) else c

/-- Rust `str::to_ascii_lowercase`. -/
def asciiLower (s : Str) : Str := s.map asciiLowerChar

/-- Decimal digit value of a character, if it is one. -/
def decDigit? (c : Char) : Option Nat :=
  if '0' ≤ c ∧ c ≤ '9' then some (c.toNat - 48) else none

/-- Numeric value of a list of decimal digits, most significant first. -/
def digitsVal (s : Str) : Nat :=
  s.foldl (fun a c => a * 10 + (c.toNat - 48)) 0

/-- Error type of `Address::from_str` (`ParseAddressError` in the source). -/
inductive ParseAddressError
  | invalidFormat
  | overflow
deriving DecidableEq, Repr

/-- Digit-consuming loop of Rust `u16::from_str`: left to right, failing with
`Overflow` as soon as the accumulated value exceeds `u16::MAX`, and with
`InvalidFormat` (the mapping of `InvalidDigit`) at the first non-digit. -/
def parseU16Go (acc : Nat) : Str → Except ParseAddressError Nat
  | [] => .ok acc
  | c :: cs =>
    match decDigit? c with
    | none => .error .invalidFormat
    | some d =>
      let acc' := acc * 10 + d
      if 65535 < acc' then .error .overflow else parseU16Go acc' cs

/-- Model of Rust `str::parse::<u16>` composed with the source's
`map_parse_int_err` (overflow kinds become `Overflow`, every other parse
failure becomes `InvalidFormat`). A leading `+` is accepted by Rust. -/
def parseU16 (s : Str) : Except ParseAddressError Nat :=
  match s with
  | [] => .error .invalidFormat
  | '+' :: rest => if rest.isEmpty then .error .invalidFormat else parseU16Go 0 rest
  | _ => parseU16Go 0 s

/-- FTN address, FRL-1002 (`Address` in `src/core/mod.rs`). -/
structure Address where
  zone : Nat
  net : Nat
  node : Nat
  point : Nat
  domain : Option Str
deriving DecidableEq, Repr

/-- The all-zero address with no domain (`Address::empty`). -/
def Address.empty : Address := ⟨0, 0, 0, 0, none⟩

/-- State tags of the single-pass address parser (`enum Tag` in the source). -/
inductive ATag
  | zone
  | net
  | node
  | point
  | domain
deriving DecidableEq, Repr

/-- The character loop of `Address::from_str`.  `acc` accumulates the current
field in reverse; transitions mirror the Rust `match (&tag, chr)` arms,
with the catch-all `(_, None) => Err(InvalidFormat)` for `zone`/`net` states
and the catch-all `_ => {}` keeping unmatched characters in the current field. -/
def fromStrAux : ATag → Str → Str → Address → Except ParseAddressError Address
  | .zone, _acc, [], _ => .error .invalidFormat
  | .zone, acc, c :: cs, a =>
    if c = ':' then do
      let z ← parseU16 acc.reverse
      fromStrAux .net [] cs { a with zone := z }
    else fromStrAux .zone (c :: acc) cs a
  | .net, _acc, [], _ => .error .invalidFormat
  | .net, acc, c :: cs, a =>
    if c = '/' then do
      let n ← parseU16 acc.reverse
      fromStrAux .node [] cs { a with net := n }
    else fromStrAux .net (c :: acc) cs a
  | .node, acc, [], a => do
    let n ← parseU16 acc.reverse
    .ok { a with node := n }
  | .node, acc, c :: cs, a =>
    if c = '.' then do
      let n ← parseU16 acc.reverse
      fromStrAux .point [] cs { a with node := n }
    else if c = '@' then do
      let n ← parseU16 acc.reverse
      fromStrAux .domain [] cs { a with node := n }
    else fromStrAux .node (c :: acc) cs a
  | .point, acc, [], a => do
    let p ← parseU16 acc.reverse
    .ok { a with point := p }
  | .point, acc, c :: cs, a =>
    if c = '@' then do
      let p ← parseU16 acc.reverse
      fromStrAux .domain [] cs { a with point := p }
    else fromStrAux .point (c :: acc) cs a
  | .domain, acc, [], a => .ok { a with domain := some acc.reverse }
  | .domain, acc, c :: cs, a => fromStrAux .domain (c :: acc) cs a

/-- Model of `impl FromStr for Address` (`src/core/mod.rs`, lines 67-137). -/
def Address.fromStr (s : Str) : Except ParseAddressError Address :=
  fromStrAux .zone [] s Address.empty

/-- A decimal `u16` literal: non-empty, all decimal digits, value within
`u16::MAX`. -/
def DigitLit (s : Str) : Prop :=
  s ≠ [] ∧ (∀ c ∈ s, (decDigit? c).isSome) ∧ digitsVal s ≤ 65535

instance (s : Str) : Decidable (DigitLit s) := by
  unfold DigitLit
  infer_instance

/-- Two sides of a MSGID/REPLY address: a parsed FTN address or the verbatim
text (`enum AddressKind` in the source). -/
inductive AddressKind
  | native (a : Address)
  | external (s : Str)
deriving DecidableEq, Repr

/-- Parsed MSGID/REPLY kludge value (`struct MessageId`). -/
structure MessageId where
  addr : AddressKind
  serial : Nat
deriving DecidableEq, Repr

/-- Error type of `MessageId::from_str`. -/
inductive ParseMessageIdError
  | invalidFormat
deriving DecidableEq, Repr

/-- Hexadecimal digit value of a character, if it is one. -/
def hexDigit? (c : Char) : Option Nat :=
  if '0' ≤ c ∧ c ≤ '9' then some (c.toNat - 48)
  else if 'a' ≤ c ∧ c ≤ 'f' then some (c.toNat - 97 + 10)
  else if 'A' ≤ c ∧ c ≤ 'F' then some (c.toNat - 65 + 10)
  else none

/-- Digit loop of Rust `u32::from_str_radix(_, 16)`; `none` on a non-hex
character or on overflow past `u32::MAX`. -/
def parseHexGo (acc : Nat) : Str → Option Nat
  | [] => some acc
  | c :: cs =>
    match hexDigit? c with
    | none => none
    | some d =>
      let acc' := acc * 16 + d
      if 4294967295 < acc' then none else parseHexGo acc' cs

/-- Model of Rust `u32::from_str_radix(s, 16)` (a leading `+` is accepted). -/
def parseHexU32 (s : Str) : Option Nat :=
  match s with
  | [] => none
  | '+' :: rest => if rest.isEmpty then none else parseHexGo 0 rest
  | _ => parseHexGo 0 s

/-- Model of `impl FromStr for MessageId` (`src/core/mod.rs`, lines 591-614):
split on the last space, the right piece is an up-to-8-hex-digit serial, the
left piece is a `Native` address when it parses and is retained verbatim as
`External` otherwise. -/
def MessageId.fromStr (s : Str) : Except ParseMessageIdError MessageId :=
  match (s.splitOn ' ').reverse with
  | ser :: addr :: _ =>
    if 8 < ser.length then .error .invalidFormat
    else
      match parseHexU32 ser with
      | none => .error .invalidFormat
      | some sl =>
        .ok (match Address.fromStr addr with
          | .ok a => ⟨.native a, sl⟩
          | .error _ => ⟨.external addr, sl⟩)
  | _ => .error .invalidFormat

/-- Error type of `parse_net_node_pairs`. -/
inductive NetNodePairError
  | invalidFormat
  | overflow
deriving DecidableEq, Repr

/-- Error mapping used in `parse_net_node_pairs`. -/
def toPairErr : ParseAddressError → NetNodePairError
  | .invalidFormat => .invalidFormat
  | .overflow => .overflow

/-- Model of `parse_net_node_pairs` (`src/core/mod.rs`, lines 636-666):
space-separated tokens, each either `net/node` or a bare `node` inheriting the
previous token's net; a bare first token is `InvalidFormat`. -/
def parse_net_node_pairs (s : Str) : Except NetNodePairError (List (Nat × Nat)) :=
  (s.splitOn ' ').foldlM
    (fun pairs p =>
      match p.splitOn '/' with
      | net :: node :: _ => do
        let net ← (parseU16 net).mapError toPairErr
        let node ← (parseU16 node).mapError toPairErr
        pure (pairs ++ [(net, node)])
      | [node] =>
        if pairs.isEmpty then .error .invalidFormat
        else do
          let node ← (parseU16 node).mapError toPairErr
          pure (pairs ++ [((pairs.getLast?.map Prod.fst).getD 0, node)])
      | [] => .error .invalidFormat)
    []

/-- Model of `parse_replyto` (`src/core/mod.rs`, lines 668-676): split on the
last space into `"address [display name]"`. -/
def parse_replyto (s : Str) : Except ParseAddressError (Address × Str) :=
  match (s.splitOn ' ').reverse with
  | name :: addr :: _ => do
    let a ← Address.fromStr addr
    pure (a, name)
  | [addr] => do
    let a ← Address.fromStr addr
    pure (a, ([] : Str))
  | [] => .error .invalidFormat

/-! Tokenizer for message bodies (`src/core/mod.rs`, lines 246-383). -/

/-- Token tags (`enum Token` in the source); `tearLine`, `origin` and
`seenBy` carry the keyword length to skip, as in the source. -/
inductive Token
  | area
  | msgId
  | reply
  | pid
  | tid
  | tzUtc
  | tearLine (skip : Nat)
  | origin (skip : Nat)
  | seenBy (skip : Nat)
  | path
  | kludge
  | paragraph
deriving DecidableEq, Repr

/-- A classified token with its text slice (`TokenPair` in the source). -/
abbrev TokenPair := Token × Str

/-- Keyword constants of the tokenizer. -/
def kwMSGID : Str := "MSGID: ".toList
def kwREPLY : Str := "REPLY: ".toList
def kwPID : Str := "PID: ".toList
def kwTID : Str := "TID: ".toList
def kwTZUTC : Str := "TZUTC: ".toList
def kwPATH : Str := "PATH: ".toList
def kwREPLYADDR : Str := "REPLYADDR: ".toList
def kwREPLYADDR2 : Str := "REPLYADDR ".toList
def kwREPLYTO : Str := "REPLYTO: ".toList
def kwREPLYTO2 : Str := "REPLYTO ".toList
def kwINTL : Str := "INTL ".toList
def kwFMPT : Str := "FMPT ".toList
def kwTOPT : Str := "TOPT ".toList
def kwAREA : Str := "AREA:".toList
def kwTEAR : Str := "--- ".toList
def kwTEAR2 : Str := "---".toList
def kwORIGIN : Str := " * Origin: ".toList
def kwSEENBY : Str := "SEEN-BY: ".toList

/-- Body classification of a paragraph (leading sub-segment). -/
def classifyPar (par : Str) : Token :=
  if kwTEAR.isPrefixOf par then .tearLine kwTEAR.length
  else if par = kwTEAR2 then .tearLine kwTEAR2.length
  else if kwORIGIN.isPrefixOf par then .origin kwORIGIN.length
  else if kwSEENBY.isPrefixOf par then .seenBy kwSEENBY.length
  else .paragraph

/-- Kludge keyword classification of a post-SOH sub-segment, with the prefix
length to strip. -/
def classifyKludge (sub : Str) : Token × Nat :=
  if kwMSGID.isPrefixOf sub then (.msgId, kwMSGID.length)
  else if kwREPLY.isPrefixOf sub then (.reply, kwREPLY.length)
  else if kwPID.isPrefixOf sub then (.pid, kwPID.length)
  else if kwTID.isPrefixOf sub then (.tid, kwTID.length)
  else if kwTZUTC.isPrefixOf sub then (.tzUtc, kwTZUTC.length)
  else if kwPATH.isPrefixOf sub then (.path, kwPATH.length)
  else (.kludge, 0)

/-- Push of one post-SOH sub-segment: pop an empty `Paragraph` sitting
between two kludges, then append the classified kludge with its keyword
stripped. -/
def pushKludge (acc : List TokenPair) (sub : Str) : List TokenPair :=
  let acc := if acc.getLast? = some (.paragraph, ([] : Str)) then acc.dropLast else acc
  let tk := classifyKludge sub
  acc ++ [(tk.1, sub.drop tk.2)]

/-- One paragraph of the first tokenizer pass: push the leading sub-segment
with the body classification, then each post-SOH sub-segment as a kludge. -/
def tokenizePar (acc : List TokenPair) (par : Str) : List TokenPair :=
  match par.splitOn soh with
  | [] => acc
  | s0 :: rest => rest.foldl pushKludge (acc ++ [(classifyPar par, s0)])

/-- First tokenizer pass over the whole text, split on newlines. -/
def firstPass (text : Str) : List TokenPair :=
  (text.splitOn '\n').foldl tokenizePar []

/-- Removal of a final empty `Paragraph` token (after TearLine/Origin/PATH). -/
def popLastEmpty (ts : List TokenPair) : List TokenPair :=
  if ts.getLast? = some (.paragraph, ([] : Str)) then ts.dropLast else ts

/-- One step of the reverse demotion pass, given the `has_origin` /
`has_tear_line` flags accumulated from the tokens after this one. -/
def demoteOne (p : TokenPair) (hasTL hasOr : Bool) : TokenPair :=
  match p.1 with
  | .tearLine _ => if hasOr ∧ hasTL then (.paragraph, p.2) else p
  | .origin _ => if hasOr then (.paragraph, p.2) else p
  | .seenBy _ => if hasOr then (.paragraph, p.2) else p
  | _ => p

/-- True when the token is a `TearLine`. -/
def isTL : TokenPair → Bool
  | (.tearLine _, _) => true
  | _ => false

/-- True when the token is an `Origin`. -/
def isOr : TokenPair → Bool
  | (.origin _, _) => true
  | _ => false

/-- The reverse demotion pass over the reversed token list, carrying the
`has_tear_line` and `has_origin` flags exactly as the source loop does. -/
def demoteRev (hasTL hasOr : Bool) : List TokenPair → List TokenPair
  | [] => []
  | p :: ps => demoteOne p hasTL hasOr :: demoteRev (hasTL || isTL p) (hasOr || isOr p) ps

/-- The in-place reverse walk of `tokenize_msg_body` (lines 341-368) that
demotes earlier `Origin`/`TearLine`/`SeenBy` tokens to `Paragraph`. -/
def demotePass (ts : List TokenPair) : List TokenPair :=
  (demoteRev false false ts.reverse).reverse

/-- The AREA reclassification (lines 370-376): the first non-empty
`Paragraph` is turned into an `Area` token when it starts with `"AREA:"`. -/
def areaPass : List TokenPair → List TokenPair
  | [] => []
  | (t, s) :: rest =>
    if t = .paragraph ∧ s ≠ [] then
      (if kwAREA.isPrefixOf s then (.area, s.drop kwAREA.length) else (t, s)) :: rest
    else (t, s) :: areaPass rest

/-- Model of `tokenize_msg_body` (`src/core/mod.rs`, lines 289-383).  The
source signature returns `Result`, but no code path produces an error. -/
def tokenize_msg_body (text : Str) : List TokenPair :=
  areaPass (demotePass (popLastEmpty (firstPass text)))

/-! Message data model (`src/core/mod.rs`, lines 139-191) and the token
interpretation `parse_tokens` (lines 385-547). -/

/-- A user: address, display name, optional foreign gateway address. -/
structure User where
  addr : Address
  name : Str
  extAddr : Option Str
deriving DecidableEq, Repr

/-- Message area: netmail or a named echomail conference. -/
inductive Area
  | netmail
  | echomail (name : Str)
deriving DecidableEq, Repr

/-- Structured kludges (`struct ControlLines`). -/
structure ControlLines where
  pid : Option Str
  tid : Option Str
  tzutc : Option Str
  seenBy : Option (List (Nat × Nat))
  path : Option (List (Nat × Nat))
  custom : Option (List Str)
deriving DecidableEq, Repr

/-- The empty `ControlLines` (`ControlLines::empty`). -/
def ControlLines.empty : ControlLines := ⟨none, none, none, none, none, none⟩

/-- A normalized message.  `posted` is the serialized datetime string exactly
as it is bound to SQL by rusqlite (with a `'T'` date/time separator); the
claims under verification never inspect its internal structure. -/
structure Message where
  area : Area
  posted : Str
  fromUser : User
  toUser : User
  flags : Nat
  msgidSerial : Nat
  replySerial : Option Nat
  msgidAddr : Option Str
  replyAddr : Option Str
  subj : Str
  body : Str
  tearLine : Str
  origin : Str
  kludges : ControlLines
deriving DecidableEq, Repr

/-- Loop state of `parse_tokens`: the message being filled plus the
`native_from` / `native_to` accumulators. -/
structure PTState where
  msg : Message
  nativeFrom : Option Address
  nativeTo : Option Address
deriving DecidableEq, Repr

/-- Handling of an unknown kludge (the `Token::Kludge` arm, lines 441-459):
`REPLYADDR` sets `from.ext_addr`; `REPLYTO` is parsed as
`"address [display name]"` and, when its address parses, overwrites
`native_from`; every kludge other than `REPLYADDR` is appended verbatim to
`kludges.custom`. -/
def kludgeStep (st : PTState) (s : Str) : PTState :=
  if kwREPLYADDR.isPrefixOf s then
    { st with msg.fromUser.extAddr := some (s.drop kwREPLYADDR.length) }
  else if kwREPLYADDR2.isPrefixOf s then
    { st with msg.fromUser.extAddr := some (s.drop kwREPLYADDR2.length) }
  else
    let st :=
      if kwREPLYTO.isPrefixOf s then
        match parse_replyto (rustTrim (s.drop kwREPLYTO.length)) with
        | .ok (a, _) => { st with nativeFrom := some a }
        | .error _ => st
      else if kwREPLYTO2.isPrefixOf s then
        match parse_replyto (rustTrim (s.drop kwREPLYTO2.length)) with
        | .ok (a, _) => { st with nativeFrom := some a }
        | .error _ => st
      else st
    { st with msg.kludges.custom := some ((st.msg.kludges.custom.getD []) ++ [s]) }

/-- One iteration of the token loop of `parse_tokens` (lines 389-465). -/
def parseStep (st : PTState) : TokenPair → PTState
  | (.area, s) => { st with msg.area := .echomail (rustTrim s) }
  | (.msgId, s) =>
    match MessageId.fromStr (rustTrim s) with
    | .ok id =>
      let st := { st with msg.msgidSerial := id.serial }
      match id.addr with
      | .native a => { st with nativeFrom := some a }
      | .external a => { st with msg.msgidAddr := some a }
    | .error _ => st
  | (.reply, s) =>
    match MessageId.fromStr (rustTrim s) with
    | .ok id =>
      let st := { st with msg.replySerial := some id.serial }
      match id.addr with
      | .native a => { st with nativeTo := some a }
      | .external a => { st with msg.replyAddr := some a }
    | .error _ => st
  | (.pid, s) => { st with msg.kludges.pid := some s }
  | (.tid, s) => { st with msg.kludges.tid := some s }
  | (.tzUtc, s) => { st with msg.kludges.tzutc := some s }
  | (.tearLine skip, s) => { st with msg.tearLine := st.msg.tearLine ++ s.drop skip }
  | (.origin skip, s) => { st with msg.origin := st.msg.origin ++ s.drop skip }
  | (.seenBy skip, s) =>
    match parse_net_node_pairs (rustTrim (s.drop skip)) with
    | .ok v => { st with msg.kludges.seenBy := some ((st.msg.kludges.seenBy.getD []) ++ v) }
    | .error _ => st
  | (.path, s) =>
    match parse_net_node_pairs (rustTrim s) with
    | .ok v => { st with msg.kludges.path := some ((st.msg.kludges.path.getD []) ++ v) }
    | .error _ => st
  | (.kludge, s) => kludgeStep st s
  | (.paragraph, s) => { st with msg.body := st.msg.body ++ s ++ ['\n'] }

/-- The last-resort origin address extraction (lines 473-484): the last `)`
and the preceding `(`/`)` character delimit the candidate, accepted only when
the former is `)`, the latter is `(`, and they are more than 3 positions
apart. -/
def originAddr (origin : Str) : Option Address :=
  match ((origin.enum.filter fun ic => ic.2 = '(' ∨ ic.2 = ')').reverse) with
  | (e, ce) :: (s, cs) :: _ =>
    if ce = ')' ∧ cs = '(' ∧ s + 3 < e then
      match Address.fromStr ((origin.drop (s + 1)).take (e - s - 1)) with
      | .ok a => some a
      | .error _ => none
    else none
  | _ => none

/-- Application of one custom kludge in the netmail `INTL`/`FMPT`/`TOPT`
correction loop (lines 502-543).  Only kludges longer than 5 characters are
examined; the first five characters select the arm. -/
def intlStep (msg : Message) (s : Str) : Message :=
  if 5 < s.length then
    if s.take 5 = kwINTL then
      let parts := (rustTrim (s.drop kwINTL.length)).splitOn ' '
      let dest := parts.head?.bind fun x => (Address.fromStr x).toOption
      let orig := (parts.drop 1).head?.bind fun x => (Address.fromStr x).toOption
      match dest, orig with
      | some dest, some orig =>
        { msg with
          toUser.addr.zone := dest.zone, toUser.addr.net := dest.net,
          toUser.addr.node := dest.node,
          fromUser.addr.zone := orig.zone, fromUser.addr.net := orig.net,
          fromUser.addr.node := orig.node }
      | _, _ => msg
    else if s.take 5 = kwFMPT then
      match parseU16 (rustTrim (s.drop kwFMPT.length)) with
      | .ok v => { msg with fromUser.addr.point := v }
      | .error _ => msg
    else if s.take 5 = kwTOPT then
      match parseU16 (rustTrim (s.drop kwTOPT.length)) with
      | .ok v => { msg with toUser.addr.point := v }
      | .error _ => msg
    else msg
  else msg

/-- The post-loop normalization of `parse_tokens` (lines 467-544): strip the
final body newline, fall back to the origin-line address for `from`, set the
`to` address from `native_to` (or empty), apply the broadcast rule, and for
netmail apply the `INTL`/`FMPT`/`TOPT` corrections. -/
def parseFinish (st : PTState) : Message :=
  let msg := st.msg
  let msg :=
    if msg.body.getLast? = some '\n' then { msg with body := msg.body.dropLast } else msg
  let nativeFrom :=
    if st.nativeFrom.isNone ∧ msg.origin ≠ [] then
      match originAddr msg.origin with
      | some a => some a
      | none => none
    else st.nativeFrom
  let msg :=
    match nativeFrom with
    | some a => { msg with fromUser.addr := a }
    | none => msg
  let msg := { msg with toUser.addr := st.nativeTo.getD Address.empty }
  let msg :=
    if msg.replySerial = none ∧ asciiLower msg.toUser.name = "all".toList then
      { msg with toUser.addr := Address.empty, toUser.extAddr := none }
    else msg
  if msg.area = .netmail then
    (msg.kludges.custom.getD []).foldl intlStep msg
  else msg

/-- Model of `parse_tokens` (`src/core/mod.rs`, lines 385-547).  The source
signature returns `Result`, but no code path produces an error. -/
def parse_tokens (tokens : List TokenPair) (msg : Message) : Message :=
  parseFinish (tokens.foldl parseStep ⟨msg, none, none⟩)

/-- The initial message produced by `messages_from` (lines 211-234) before the
body is tokenized, taking the already-decoded text fields as inputs: the area
starts as `Netmail`, serials at 0, and every optional field empty. -/
def init_message (posted : Str) (fromAddr toAddr : Address) (fromName toName subj : Str)
    (flags : Nat) : Message where
  area := .netmail
  posted := posted
  fromUser := ⟨fromAddr, fromName, none⟩
  toUser := ⟨toAddr, toName, none⟩
  flags := flags
  msgidSerial := 0
  replySerial := none
  msgidAddr := none
  replyAddr := none
  subj := subj
  body := []
  tearLine := []
  origin := []
  kludges := ControlLines.empty

/-- The message-base file name chosen by the toss orchestrator for an area
(`src/tosser/mod.rs`, lines 131-135): `netmail`, or the lowercased echomail
area name. -/
def areaDbName : Area → Str
  | .netmail => "netmail".toList
  | .echomail name => asciiLower name

/-! Packet decoder (`src/ftn/pkt.rs`).  The byte stream is a `List Nat` of
bytes; every failed read (`podio` raises `UnexpectedEof`) is the single
error `ioEof`, since `Package::read` boxes all of them uniformly. -/

/-- Errors of the packet decoder: the `PackageError` variants of the source
plus the boxed I/O and UTF-8 errors that `?` propagates. -/
inductive PkgError
  | ioEof
  | invalidDate (year month day : Nat)
  | invalidTime (hour minute second : Nat)
  | invalidUtf8
deriving DecidableEq, Repr

/-- Little-endian u16 read; fails when fewer than two bytes remain. -/
def readU16le : List Nat → Except PkgError (Nat × List Nat)
  | b0 :: b1 :: rest => .ok (b0 + 256 * b1, rest)
  | _ => .error .ioEof

/-- Big-endian u16 read. -/
def readU16be : List Nat → Except PkgError (Nat × List Nat)
  | b0 :: b1 :: rest => .ok (256 * b0 + b1, rest)
  | _ => .error .ioEof

/-- Little-endian u32 read. -/
def readU32le : List Nat → Except PkgError (Nat × List Nat)
  | b0 :: b1 :: b2 :: b3 :: rest =>
    .ok (b0 + 256 * b1 + 65536 * b2 + 16777216 * b3, rest)
  | _ => .error .ioEof

/-- Single byte read. -/
def readU8 : List Nat → Except PkgError (Nat × List Nat)
  | b :: rest => .ok (b, rest)
  | _ => .error .ioEof

/-- Fixed-length read (`ReadPodExt::read_exact`). -/
def readExact (n : Nat) (bs : List Nat) : Except PkgError (List Nat × List Nat) :=
  if n ≤ bs.length then .ok (bs.take n, bs.drop n) else .error .ioEof

/-- Model of the source's `read_excl_zero`: read up to and including the next
NUL byte and drop the NUL; at end-of-input, return everything read so far
(`BufRead::read_until` succeeds returning 0 at EOF). -/
def read_excl_zero (bs : List Nat) : List Nat × List Nat :=
  let v := bs.takeWhile (· ≠ 0)
  match bs.dropWhile (· ≠ 0) with
  | 0 :: tail => (v, tail)
  | rest => (v, rest)

/-- Gregorian leap year. -/
def isLeap (y : Nat) : Bool := (y % 4 == 0 && y % 100 != 0) || y % 400 == 0

/-- Days in a month (month 1-12). -/
def daysInMonth (y m : Nat) : Nat :=
  if m = 2 then (if isLeap y then 29 else 28)
  else if m = 4 ∨ m = 6 ∨ m = 9 ∨ m = 11 then 30
  else 31

/-- Validity test of `NaiveDate::from_ymd_opt` for years in u16 range. -/
def validYmd (y m d : Nat) : Bool := 1 ≤ m && m ≤ 12 && 1 ≤ d && d ≤ daysInMonth y m

/-- Validity test of `NaiveDate::and_hms_opt`. -/
def validHms (h mi s : Nat) : Bool := h < 24 && mi < 60 && s < 60

/-- A calendar datetime, as carried by `Package::created`. -/
structure DateTime6 where
  year : Nat
  month : Nat
  day : Nat
  hour : Nat
  minute : Nat
  second : Nat
deriving DecidableEq, Repr

/-- UTF-8 validity of a byte sequence (Rust `String::from_utf8`). -/
def validUtf8 : List Nat → Bool
  | [] => true
  | b :: bs =>
    if b < 0x80 then validUtf8 bs
    else if 0xC2 ≤ b ∧ b ≤ 0xDF then
      match bs with
      | b1 :: bs' => (0x80 ≤ b1 && b1 ≤ 0xBF) && validUtf8 bs'
      | _ => false
    else if b = 0xE0 then
      match bs with
      | b1 :: b2 :: bs' => (0xA0 ≤ b1 && b1 ≤ 0xBF) && (0x80 ≤ b2 && b2 ≤ 0xBF) && validUtf8 bs'
      | _ => false
    else if (0xE1 ≤ b ∧ b ≤ 0xEC) ∨ b = 0xEE ∨ b = 0xEF then
      match bs with
      | b1 :: b2 :: bs' => (0x80 ≤ b1 && b1 ≤ 0xBF) && (0x80 ≤ b2 && b2 ≤ 0xBF) && validUtf8 bs'
      | _ => false
    else if b = 0xED then
      match bs with
      | b1 :: b2 :: bs' => (0x80 ≤ b1 && b1 ≤ 0x9F) && (0x80 ≤ b2 && b2 ≤ 0xBF) && validUtf8 bs'
      | _ => false
    else if b = 0xF0 then
      match bs with
      | b1 :: b2 :: b3 :: bs' =>
        (0x90 ≤ b1 && b1 ≤ 0xBF) && (0x80 ≤ b2 && b2 ≤ 0xBF) && (0x80 ≤ b3 && b3 ≤ 0xBF) &&
        validUtf8 bs'
      | _ => false
    else if 0xF1 ≤ b ∧ b ≤ 0xF3 then
      match bs with
      | b1 :: b2 :: b3 :: bs' =>
        (0x80 ≤ b1 && b1 ≤ 0xBF) && (0x80 ≤ b2 && b2 ≤ 0xBF) && (0x80 ≤ b3 && b3 ≤ 0xBF) &&
        validUtf8 bs'
      | _ => false
    else if b = 0xF4 then
      match bs with
      | b1 :: b2 :: b3 :: bs' =>
        (0x80 ≤ b1 && b1 ≤ 0x8F) && (0x80 ≤ b2 && b2 ≤ 0xBF) && (0x80 ≤ b3 && b3 ≤ 0xBF) &&
        validUtf8 bs'
      | _ => false
    else false

/-- Raw 4D address of the packet layer (`ftn::Address`). -/
structure FtnAddress where
  zone : Nat
  net : Nat
  node : Nat
  point : Nat
deriving DecidableEq, Repr

/-- Raw user of the packet layer: address plus undecoded name bytes. -/
structure RawUser where
  address : FtnAddress
  name : List Nat
deriving DecidableEq, Repr

/-- A raw packet message: undecoded byte fields. -/
structure RawMessage where
  posted : List Nat
  fromUser : RawUser
  toUser : RawUser
  flags : Nat
  subj : List Nat
  text : List Nat
deriving DecidableEq, Repr

/-- The recovery loop for a mis-sized `posted` field (lines 185-193): consume
up to `n` bytes looking for a NUL; the first non-NUL byte is returned to
become the first byte of `to_name`; end-of-input inside the loop is an
error (`read_u8` with `?`). -/
def recoverPosted : Nat → List Nat → Except PkgError (List Nat × List Nat)
  | 0, bs => .ok ([], bs)
  | n + 1, bs =>
    match bs with
    | [] => .error .ioEof
    | b :: rest => if b ≠ 0 then .ok ([b], rest) else recoverPosted n rest

/-- One message record read (lines 146-223): six u16 fields then five
NUL-terminated strings, with the `posted` length-19 recovery heuristic. -/
def read_one_message (origZone destZone : Nat) (bs : List Nat) :
    Except PkgError (RawMessage × List Nat) :=
  match readU16le bs with
  | .error e => .error e
  | .ok (fromNode, bs) =>
  match readU16le bs with
  | .error e => .error e
  | .ok (toNode, bs) =>
  match readU16le bs with
  | .error e => .error e
  | .ok (fromNet, bs) =>
  match readU16le bs with
  | .error e => .error e
  | .ok (toNet, bs) =>
  match readU16le bs with
  | .error e => .error e
  | .ok (flags, bs) =>
  match readU16le bs with
  | .error e => .error e
  | .ok (_cost, bs) =>
  let pr := read_excl_zero bs
  match
    (if pr.1.length ≠ 19 then
      match recoverPosted (19 - pr.1.length) pr.2 with
      | .error e => .error e
      | .ok (namePre, bs) => .ok (([] : List Nat), namePre, bs)
    else .ok (pr.1, ([] : List Nat), pr.2) :
      Except PkgError (List Nat × List Nat × List Nat)) with
  | .error e => .error e
  | .ok (posted, namePre, bs) =>
  let r1 := read_excl_zero bs
  let r2 := read_excl_zero r1.2
  let r3 := read_excl_zero r2.2
  let r4 := read_excl_zero r3.2
  .ok
    ({ posted := posted
       fromUser := ⟨⟨origZone, fromNet, fromNode, 0⟩, r2.1⟩
       toUser := ⟨⟨destZone, toNet, toNode, 0⟩, namePre ++ r1.1⟩
       flags := flags
       subj := r3.1
       text := r4.1 }, r4.2)

/-- A successful u16 read consumes exactly two bytes. -/
theorem readU16le_len {bs : List Nat} {w : Nat} {rest : List Nat}
    (h : readU16le bs = .ok (w, rest)) : rest.length + 2 = bs.length := by
  match bs, h with
  | b0 :: b1 :: r, h =>
    simp [readU16le] at h
    obtain ⟨-, h2⟩ := h
    simp [← h2]

/-- Consumed input is a suffix: `read_excl_zero` never lengthens the stream. -/
theorem read_excl_zero_le (bs : List Nat) : (read_excl_zero bs).2.length ≤ bs.length := by
  unfold read_excl_zero
  have h : (bs.dropWhile (· ≠ 0)).length ≤ bs.length := (List.dropWhile_sublist _).length_le
  split
  case _ tail heq =>
    have : (0 :: tail).length ≤ bs.length := heq ▸ h
    simpa using Nat.le_of_succ_le this
  case _ => exact h

/-- The recovery loop never lengthens the stream. -/
theorem recoverPosted_le (n : Nat) (bs out rest : List Nat)
    (h : recoverPosted n bs = .ok (out, rest)) : rest.length ≤ bs.length := by
  induction n generalizing bs out rest with
  | zero => simp only [recoverPosted] at h; cases h; exact le_refl _
  | succ n ih =>
    simp only [recoverPosted] at h
    match bs, h with
    | b :: bs', h =>
      by_cases hb : b ≠ 0
      · simp [hb] at h
        obtain ⟨-, h2⟩ := h
        simp [← h2]
      · simp [hb] at h
        exact Nat.le_succ_of_le (ih _ _ _ h)

/-- A message record read never lengthens the stream. -/
theorem read_one_message_le (z1 z2 : Nat) (bs : List Nat) (m : RawMessage)
    (rest : List Nat) (h : read_one_message z1 z2 bs = .ok (m, rest)) :
    rest.length ≤ bs.length := by
  simp only [read_one_message] at h
  split at h
  · exact absurd h (by simp)
  next fromNode bs1 h1 =>
  split at h
  · exact absurd h (by simp)
  next toNode bs2 h2 =>
  split at h
  · exact absurd h (by simp)
  next fromNet bs3 h3 =>
  split at h
  · exact absurd h (by simp)
  next toNet bs4 h4 =>
  split at h
  · exact absurd h (by simp)
  next flags bs5 h5 =>
  split at h
  · exact absurd h (by simp)
  next cost bs6 h6 =>
  split at h
  · exact absurd h (by simp)
  next posted namePre bs7 h7 =>
  injection h with h
  injection h with hm hrest
  have e1 := readU16le_len h1
  have e2 := readU16le_len h2
  have e3 := readU16le_len h3
  have e4 := readU16le_len h4
  have e5 := readU16le_len h5
  have e6 := readU16le_len h6
  have hb7 : bs7.length ≤ bs6.length := by
    split at h7
    · split at h7
      · exact absurd h7 (by simp)
      next np bsr hrec =>
        injection h7 with h7
        injection h7 with ha hbc
        injection hbc with hb hc
        subst hc
        exact le_trans (recoverPosted_le _ _ _ _ hrec) (read_excl_zero_le bs6)
    · injection h7 with h7
      injection h7 with ha hbc
      injection hbc with hb hc
      subst hc
      exact read_excl_zero_le bs6
  have s1 := read_excl_zero_le bs7
  have s2 := read_excl_zero_le (read_excl_zero bs7).2
  have s3 := read_excl_zero_le (read_excl_zero (read_excl_zero bs7).2).2
  have s4 := read_excl_zero_le (read_excl_zero (read_excl_zero (read_excl_zero bs7).2).2).2
  rw [← hrest]
  omega

/-- The message loop of `Package::read` (lines 133-224): read a u16; on a
read failure exit the loop successfully; when it is not 2 the remaining bytes
are drained (`read_to_end`) and, if none remained, the loop breaks — but if
some remained, control falls through and the next record is read from the
now-drained reader. -/
def readMessages (origZone destZone : Nat) (acc : List RawMessage) (bs : List Nat) :
    Except PkgError (List RawMessage) :=
  match h : readU16le bs with
  | .error _ => .ok acc
  | .ok (w, rest) =>
    if w ≠ 2 then
      if rest.isEmpty then .ok acc
      else
        match h2 : read_one_message origZone destZone [] with
        | .error e => .error e
        | .ok (m, rest') => readMessages origZone destZone (acc ++ [m]) rest'
    else
      match h2 : read_one_message origZone destZone rest with
      | .error e => .error e
      | .ok (m, rest') => readMessages origZone destZone (acc ++ [m]) rest'
termination_by bs.length
decreasing_by
  · have l1 := read_one_message_le _ _ _ _ _ h2
    have l2 := readU16le_len h
    simp only [List.length_nil] at l1
    omega
  · have l1 := read_one_message_le _ _ _ _ _ h2
    have l2 := readU16le_len h
    omega

/-- A decoded packet (`struct Package`). The `password` field keeps the raw
(NUL-trimmed, UTF-8-checked) bytes. -/
structure Package where
  orig : FtnAddress
  dest : FtnAddress
  created : DateTime6
  password : List Nat
  rate : Nat
  ver : Nat
  prodCode : Nat
  serialNo : Nat
  auxNet : Nat
  capWord : Nat
  hiProductCode : Nat
  minorProductRev : Nat
  messages : List RawMessage
deriving DecidableEq, Repr

/-- Model of `Package::read` (`src/ftn/pkt.rs`, lines 79-251): the fixed
FTS-0001 header followed by the message loop. -/
def Package.read (bs : List Nat) : Except PkgError Package :=
  match readU16le bs with
  | .error e => .error e
  | .ok (origNode, bs) =>
  match readU16le bs with
  | .error e => .error e
  | .ok (destNode, bs) =>
  match readU16le bs with
  | .error e => .error e
  | .ok (year, bs) =>
  match readU16le bs with
  | .error e => .error e
  | .ok (month0, bs) =>
  let month := month0 + 1
  match readU16le bs with
  | .error e => .error e
  | .ok (day, bs) =>
  match readU16le bs with
  | .error e => .error e
  | .ok (hour, bs) =>
  match readU16le bs with
  | .error e => .error e
  | .ok (minute, bs) =>
  match readU16le bs with
  | .error e => .error e
  | .ok (second, bs) =>
  if ¬ validYmd year month day then .error (.invalidDate year month day)
  else if ¬ validHms hour minute second then .error (.invalidTime hour minute second)
  else
  match readU16le bs with
  | .error e => .error e
  | .ok (rate, bs) =>
  match readU16le bs with
  | .error e => .error e
  | .ok (ver, bs) =>
  match readU16le bs with
  | .error e => .error e
  | .ok (origNet, bs) =>
  match readU16le bs with
  | .error e => .error e
  | .ok (destNet, bs) =>
  match readU8 bs with
  | .error e => .error e
  | .ok (prodCode, bs) =>
  match readU8 bs with
  | .error e => .error e
  | .ok (serialNo, bs) =>
  match readExact 8 bs with
  | .error e => .error e
  | .ok (pw, bs) =>
  let password := pw.takeWhile (· ≠ 0)
  if ¬ validUtf8 password then .error .invalidUtf8
  else
  match readU16le bs with
  | .error e => .error e
  | .ok (origZone, bs) =>
  match readU16le bs with
  | .error e => .error e
  | .ok (destZone, bs) =>
  match readU16le bs with
  | .error e => .error e
  | .ok (auxNet, bs) =>
  match readU16be bs with
  | .error e => .error e
  | .ok (_capWordCopy, bs) =>
  match readU8 bs with
  | .error e => .error e
  | .ok (hiProductCode, bs) =>
  match readU8 bs with
  | .error e => .error e
  | .ok (minorProductRev, bs) =>
  match readU16le bs with
  | .error e => .error e
  | .ok (capWord, bs) =>
  match readU32le bs with
  | .error e => .error e
  | .ok (_zoneInfo, bs) =>
  match readU16le bs with
  | .error e => .error e
  | .ok (origPoint, bs) =>
  match readU16le bs with
  | .error e => .error e
  | .ok (destPoint, bs) =>
  match readU32le bs with
  | .error e => .error e
  | .ok (_productData, bs) =>
  match readMessages origZone destZone [] bs with
  | .error e => .error e
  | .ok messages =>
  .ok
    { orig := ⟨origZone, origNet, origNode, origPoint⟩
      dest := ⟨destZone, destNet, destNode, destPoint⟩
      created := ⟨year, month, day, hour, minute, second⟩
      password := password
      rate := rate
      ver := ver
      prodCode := prodCode
      serialNo := serialNo
      auxNet := auxNet
      capWord := capWord
      hiProductCode := hiProductCode
      minorProductRev := minorProductRev
      messages := messages }

/-! Message base (`src/store/mod.rs`).  The SQLite database is modelled as
explicit lists of rows, one list per table, in insertion order; autoincrement
ids are `max(id) + 1`; `SELECT` without `ORDER BY` returns rows in table
order.  SQL `NULL` is `Option.none`; SQLite `trim` strips spaces only. -/

/-- A row of the `users` table; zero address parts and blank strings are
stored as `NULL`. -/
structure UserRow where
  id : Nat
  name : Str
  zone : Option Nat
  net : Option Nat
  node : Option Nat
  point : Option Nat
  domain : Option Str
  foreignAddress : Option Str
deriving DecidableEq, Repr

/-- A row of the `messages` table. -/
structure MsgRow where
  id : Nat
  posted : Str
  tzutc : Option Str
  msgidSerial : Nat
  replySerial : Option Nat
  msgidAddress : Option Str
  replyAddress : Option Str
  fromId : Nat
  toId : Nat
  flags : Nat
  subjectId : Option Nat
  body : Str
  tearLineId : Option Nat
  originId : Option Nat
  pidId : Option Nat
  tidId : Option Nat
  seenById : Option Nat
  pathId : Option Nat
deriving DecidableEq, Repr

/-- The whole message-base state.  `seenBys` rows are `(id, net, node)`,
`paths` rows `(id, position, net, node)`, `kludgeRows` rows
`(message_id, kludge)`. -/
structure DB where
  users : List UserRow
  subjects : List (Nat × Str)
  seenBys : List (Nat × Nat × Nat)
  paths : List (Nat × Nat × Nat × Nat)
  software : List (Nat × Str)
  tearLines : List (Nat × Str)
  origins : List (Nat × Str)
  messages : List MsgRow
  kludgeRows : List (Nat × Str)
deriving DecidableEq, Repr

/-- The empty database, as created by `prepare_database`. -/
def DB.empty : DB := ⟨[], [], [], [], [], [], [], [], []⟩

/-- Largest id in use (0 for an empty table), the value of
`coalesce(max(id), 0)`. -/
def maxId (ids : List Nat) : Nat := ids.foldr max 0

/-- Next autoincrement id. -/
def nextAutoId (ids : List Nat) : Nat := maxId ids + 1

/-- SQL `nullif(x, 0)` for ids. -/
def nullIfZero (n : Nat) : Option Nat := if n = 0 then none else some n

/-- SQL `nullif(trim(x), '')` applied to a nullable text parameter. -/
def sqlNullIfBlank (s : Option Str) : Option Str :=
  s.bind fun v => if sqlTrim v = [] then none else some (sqlTrim v)

/-- Generic scalar `select_or_insert!` on a text dedup table: select the id
of the first row whose text equals `key`, or insert `(max+1, key)` and return
`last_insert_rowid()`. -/
def getTextId (table : List (Nat × Str)) (key : Str) : Nat × List (Nat × Str) :=
  match table.find? (fun r => r.2 == key) with
  | some r => (r.1, table)
  | none =>
    let id := nextAutoId (table.map Prod.fst)
    (id, table ++ [(id, key)])

/-- Model of `get_subj_id`: 0 on a blank subject, else dedup on the trimmed
text. -/
def get_subj_id (db : DB) (subj : Str) : Nat × DB :=
  if rustTrim subj = [] then (0, db)
  else
    let r := getTextId db.subjects (sqlTrim subj)
    (r.1, { db with subjects := r.2 })

/-- Model of `get_software_id` (PIDs and TIDs). -/
def get_software_id (db : DB) (name : Str) : Nat × DB :=
  if rustTrim name = [] then (0, db)
  else
    let r := getTextId db.software (sqlTrim name)
    (r.1, { db with software := r.2 })

/-- Model of `get_tear_line_id`. -/
def get_tear_line_id (db : DB) (tl : Str) : Nat × DB :=
  if rustTrim tl = [] then (0, db)
  else
    let r := getTextId db.tearLines (sqlTrim tl)
    (r.1, { db with tearLines := r.2 })

/-- Model of `get_origin_id`. -/
def get_origin_id (db : DB) (origin : Str) : Nat × DB :=
  if rustTrim origin = [] then (0, db)
  else
    let r := getTextId db.origins (sqlTrim origin)
    (r.1, { db with origins := r.2 })

/-- The name stored and compared for a user:
`coalesce(nullif(trim(:name), ''), '<empty>')`. -/
def userKeyName (name : Str) : Str :=
  if sqlTrim name = [] then "<empty>".toList else sqlTrim name

/-- The `WHERE` clause of the user dedup select.  Note that a `NULL` bound
`:domain` or `:ext_addr` makes `coalesce(domain,'') = trim(:domain)` a
`NULL` predicate, which matches no row. -/
def userRowMatches (u : User) (r : UserRow) : Bool :=
  r.name == userKeyName u.name &&
  r.zone.getD 0 == u.addr.zone &&
  r.net.getD 0 == u.addr.net &&
  r.node.getD 0 == u.addr.node &&
  r.point.getD 0 == u.addr.point &&
  (match u.addr.domain with
   | none => false
   | some d => r.domain.getD [] == sqlTrim d) &&
  (match u.extAddr with
   | none => false
   | some x => r.foreignAddress.getD [] == sqlTrim x)

/-- Model of `get_user_id`: select by the `COALESCE` equality, else insert
with zero parts and blank strings stored as `NULL`. -/
def get_user_id (db : DB) (u : User) : Nat × DB :=
  match db.users.find? (userRowMatches u) with
  | some r => (r.id, db)
  | none =>
    let id := nextAutoId (db.users.map (·.id))
    let row : UserRow :=
      { id := id
        name := userKeyName u.name
        zone := nullIfZero u.addr.zone
        net := nullIfZero u.addr.net
        node := nullIfZero u.addr.node
        point := nullIfZero u.addr.point
        domain := sqlNullIfBlank u.addr.domain
        foreignAddress := sqlNullIfBlank u.extAddr }
    (id, { db with users := db.users ++ [row] })

/-- SQL `ORDER BY net, node`: lexicographic order on pairs. -/
def pairLe (a b : Nat × Nat) : Prop := a.1 < b.1 ∨ (a.1 = b.1 ∧ a.2 ≤ b.2)

instance : DecidableRel pairLe := fun a b => by
  unfold pairLe; infer_instance

instance : IsTotal (Nat × Nat) pairLe where
  total a b := by unfold pairLe; omega

instance : IsTrans (Nat × Nat) pairLe where
  trans a b c hab hbc := by unfold pairLe at *; omega

instance : IsAntisymm (Nat × Nat) pairLe where
  antisymm a b hab hba := by
    unfold pairLe at *
    have h1 : a.1 = b.1 := by omega
    have h2 : a.2 = b.2 := by omega
    exact Prod.ext h1 h2

/-- Sorting of `(net, node)` pairs, as `ORDER BY net, node` does. -/
def sortPairs (l : List (Nat × Nat)) : List (Nat × Nat) := l.insertionSort pairLe

/-- Distinct group ids of the `seen_bys` table, ascending (the order of the
grouped select). -/
def seenByIds (t : List (Nat × Nat × Nat)) : List Nat :=
  ((t.map (·.1)).dedup).insertionSort (· ≤ ·)

/-- The sorted `(net, node)` group of one seen-by id, as serialized by
`json_group_array` over rows ordered by `id, net, node`. -/
def seenByGroup (t : List (Nat × Nat × Nat)) (i : Nat) : List (Nat × Nat) :=
  sortPairs ((t.filter (·.1 == i)).map (fun r => (r.2.1, r.2.2)))

/-- Model of `get_seenby_id` (`src/store/mod.rs`, lines 284-364): 0 when the
list is absent or empty; otherwise find the group whose sorted rows equal the
sorted input, or insert the sorted input under `max(id)+1` and return
`select max(id)`. -/
def get_seenby_id (db : DB) (seenBy : Option (List (Nat × Nat))) : Nat × DB :=
  match seenBy with
  | none => (0, db)
  | some [] => (0, db)
  | some l =>
    match (seenByIds db.seenBys).find? (fun i => seenByGroup db.seenBys i == sortPairs l) with
    | some i => (i, db)
    | none =>
      let newId := maxId (db.seenBys.map (·.1)) + 1
      let rows := (sortPairs l).map fun p => (newId, p.1, p.2)
      let t := db.seenBys ++ rows
      (maxId (t.map (·.1)), { db with seenBys := t })

/-- Order on `paths` rows by `position` (second component). -/
def posLe (a b : Nat × Nat × Nat × Nat) : Prop := a.2.1 ≤ b.2.1

instance : DecidableRel posLe := fun a b => by
  unfold posLe; infer_instance

/-- Distinct group ids of the `paths` table, ascending. -/
def pathIds (t : List (Nat × Nat × Nat × Nat)) : List Nat :=
  ((t.map (·.1)).dedup).insertionSort (· ≤ ·)

/-- The `(net, node)` sequence of one path id in `position` order. -/
def pathGroup (t : List (Nat × Nat × Nat × Nat)) (i : Nat) : List (Nat × Nat) :=
  ((t.filter (·.1 == i)).insertionSort posLe).map fun r => (r.2.2.1, r.2.2.2)

/-- Model of `get_path_id` (`src/store/mod.rs`, lines 366-431): 0 when the
list is absent or empty; otherwise find the group whose sequence equals the
input in its given order, or insert the input with `row_number()` positions
under `max(id)+1` and return `select max(id)`. -/
def get_path_id (db : DB) (path : Option (List (Nat × Nat))) : Nat × DB :=
  match path with
  | none => (0, db)
  | some [] => (0, db)
  | some l =>
    match (pathIds db.paths).find? (fun i => pathGroup db.paths i == l) with
    | some i => (i, db)
    | none =>
      let newId := maxId (db.paths.map (·.1)) + 1
      let rows := l.enum.map fun kp => (newId, kp.1 + 1, kp.2.1, kp.2.2)
      let t := db.paths ++ rows
      (maxId (t.map (·.1)), { db with paths := t })

/-- SQL `replace(x, 'T', ' ')`, applied to the serialized `posted` value. -/
def replaceT (s : Str) : Str := s.map fun c => if c = 'T' then ' ' else c

/-- The duplicate check of `toss`: a row with the same `msgid_serial` and the
same normalized `posted`. -/
def isDupRow (msg : Message) (r : MsgRow) : Bool :=
  r.msgidSerial == msg.msgidSerial && r.posted == replaceT msg.posted

/-- The special to-user resolution for replies: reuse the original poster's
`from_id` when a message with `msgid_serial = :reply` exists whose from-user
name equals the trimmed destination name. -/
def replyToJoin (db : DB) (msg : Message) : Nat :=
  match msg.replySerial with
  | some rid =>
    match db.messages.find? (fun m => m.msgidSerial == rid &&
        (db.users.find? (fun u => u.id == m.fromId && u.name == sqlTrim msg.toUser.name)).isSome) with
    | some m => m.fromId
    | none => 0
  | none => 0

/-- The to-user resolution block of `toss` (lines 63-96): the reply join
when it finds a positive id, the ordinary user dedup otherwise. -/
def get_to_id (db : DB) (msg : Message) : Nat × DB :=
  let tj := replyToJoin db msg
  if 0 < tj then (tj, db) else get_user_id db msg.toUser

/-- The `map_or(Ok(0), get_software_id)` pattern used for PID and TID. -/
def get_opt_software_id (db : DB) (o : Option Str) : Nat × DB :=
  match o with
  | some x => get_software_id db x
  | none => (0, db)

/-- Model of `MessageBase::toss` (`src/store/mod.rs`, lines 32-183): the
duplicate check returning the `-1` sentinel with the transaction rolled back,
then the dedup lookups, the message insert with its `NULL` normalizations,
and the custom kludge inserts. -/
def toss (db : DB) (msg : Message) : Int × DB :=
  if (db.messages.find? (isDupRow msg)).isSome then
    (-1, db)
  else
    let r1 := get_subj_id db msg.subj
    let subjId := r1.1
    let db1 := r1.2
    let r2 := get_user_id db1 msg.fromUser
    let fromId := r2.1
    let db2 := r2.2
    let r3 := get_to_id db2 msg
    let toId := r3.1
    let db3 := r3.2
    let r4 := get_seenby_id db3 msg.kludges.seenBy
    let seenById := r4.1
    let db4 := r4.2
    let r5 := get_path_id db4 msg.kludges.path
    let pathId := r5.1
    let db5 := r5.2
    let r6 := get_opt_software_id db5 msg.kludges.pid
    let pidId := r6.1
    let db6 := r6.2
    let r7 := get_opt_software_id db6 msg.kludges.tid
    let tidId := r7.1
    let db7 := r7.2
    let r8 := get_tear_line_id db7 msg.tearLine
    let tearLineId := r8.1
    let db8 := r8.2
    let r9 := get_origin_id db8 msg.origin
    let originId := r9.1
    let db9 := r9.2
    let id := nextAutoId (db9.messages.map (·.id))
    let row : MsgRow :=
      { id := id
        posted := replaceT msg.posted
        tzutc := sqlNullIfBlank msg.kludges.tzutc
        msgidSerial := msg.msgidSerial
        replySerial := msg.replySerial.bind nullIfZero
        msgidAddress := sqlNullIfBlank msg.msgidAddr
        replyAddress := sqlNullIfBlank msg.replyAddr
        fromId := fromId
        toId := toId
        flags := msg.flags
        subjectId := nullIfZero subjId
        body := msg.body
        tearLineId := nullIfZero tearLineId
        originId := nullIfZero originId
        pidId := nullIfZero pidId
        tidId := nullIfZero tidId
        seenById := nullIfZero seenById
        pathId := nullIfZero pathId }
    let db10 := { db9 with messages := db9.messages ++ [row] }
    let db11 :=
      { db10 with
        kludgeRows := db10.kludgeRows ++ (msg.kludges.custom.getD []).map fun kl => (id, kl) }
    (Int.ofNat id, db11)

/-! Lemmas about the demotion pass of the tokenizer. -/

/-- True when the token is an `Area`. -/
def isArea : TokenPair → Bool
  | (.area, _) => true
  | _ => false

/-- Demotion never changes the text slice. -/
theorem demoteOne_snd (p : TokenPair) (a b : Bool) : (demoteOne p a b).2 = p.2 := by
  unfold demoteOne
  split <;> first
    | rfl
    | (split <;> rfl)

/-- Demotion either keeps the pair or turns it into a `Paragraph` with the
same text. -/
theorem demoteOne_cases (p : TokenPair) (a b : Bool) :
    demoteOne p a b = p ∨ demoteOne p a b = (.paragraph, p.2) := by
  unfold demoteOne
  split <;> first
    | exact Or.inl rfl
    | (split
       · exact Or.inr rfl
       · exact Or.inl rfl)

/-- Pushing the last element through the reverse walk: it sees the flags
accumulated over all preceding elements. -/
theorem demoteRev_append (hTL hOr : Bool) (xs : List TokenPair) (p : TokenPair) :
    demoteRev hTL hOr (xs ++ [p]) =
      demoteRev hTL hOr xs ++ [demoteOne p (hTL || xs.any isTL) (hOr || xs.any isOr)] := by
  induction xs generalizing hTL hOr with
  | nil => simp [demoteRev]
  | cons q qs ih =>
    simp only [List.cons_append, demoteRev, List.append_eq]
    rw [ih]
    simp [Bool.or_assoc]

/-- Head-wise recursion for the demotion pass: the head is demoted according
to the flags over the tail, and the tail is processed independently. -/
theorem demotePass_cons (p : TokenPair) (ts : List TokenPair) :
    demotePass (p :: ts) = demoteOne p (ts.any isTL) (ts.any isOr) :: demotePass ts := by
  unfold demotePass
  rw [List.reverse_cons, demoteRev_append]
  simp [List.any_reverse]

/-- The demotion pass preserves the number of tokens. -/
theorem demotePass_length (ts : List TokenPair) : (demotePass ts).length = ts.length := by
  induction ts with
  | nil => rfl
  | cons p ts ih => rw [demotePass_cons]; simp [ih]

/-- Pointwise characterization of the demotion pass: the token at position
`i` is demoted according to whether a `TearLine` and an `Origin` occur after
position `i`. -/
theorem demotePass_getElem (ts : List TokenPair) (i : Nat) :
    (demotePass ts)[i]? =
      (ts[i]?).map fun p =>
        demoteOne p ((ts.drop (i + 1)).any isTL) ((ts.drop (i + 1)).any isOr) := by
  induction ts generalizing i with
  | nil => simp [demotePass, demoteRev]
  | cons p ts ih =>
    rw [demotePass_cons]
    match i with
    | 0 => simp
    | Nat.succ j => simpa using ih j

/-- The demotion pass preserves all text slices. -/
theorem demotePass_snd (ts : List TokenPair) :
    (demotePass ts).map Prod.snd = ts.map Prod.snd := by
  induction ts with
  | nil => rfl
  | cons p ts ih => rw [demotePass_cons]; simp [ih, demoteOne_snd]

/-- A list without origins stays without origins under demotion. -/
theorem demotePass_noOr (ts : List TokenPair) (h : ts.any isOr = false) :
    (demotePass ts).any isOr = false := by
  induction ts with
  | nil => rfl
  | cons p ts ih =>
    rw [demotePass_cons]
    simp only [List.any_cons, Bool.or_eq_false_iff] at h ⊢
    refine ⟨?_, ih h.2⟩
    rcases demoteOne_cases p (ts.any isTL) (ts.any isOr) with hc | hc
    · rw [hc]; exact h.1
    · rw [hc]; rfl

/-- At most one origin survives the demotion pass. -/
theorem demotePass_countOr (ts : List TokenPair) :
    (demotePass ts).countP isOr ≤ 1 := by
  induction ts with
  | nil => simp [demotePass, demoteRev]
  | cons p ts ih =>
    rw [demotePass_cons, List.countP_cons]
    by_cases hp : isOr p = true
    · obtain ⟨t, s⟩ := p
      cases t <;> simp only [isOr] at hp <;> try simp at hp
      rename_i k
      by_cases hor : ts.any isOr = true
      · have hd : demoteOne (Token.origin k, s) (ts.any isTL) (ts.any isOr) = (.paragraph, s) := by
          simp [demoteOne, hor]
        rw [hd]
        have : isOr ((Token.paragraph, s) : TokenPair) = false := rfl
        rw [this]
        simpa using ih
      · have hor' : ts.any isOr = false := by simpa using hor
        have hz : (demotePass ts).countP isOr = 0 := by
          rw [List.countP_eq_zero]
          intro a ha hc
          have hno := demotePass_noOr ts hor'
          have : (demotePass ts).any isOr = true := List.any_eq_true.mpr ⟨a, ha, hc⟩
          rw [hno] at this
          exact absurd this (by simp)
        rw [hz]
        split <;> omega
    · have hd : isOr (demoteOne p (ts.any isTL) (ts.any isOr)) = false := by
        rcases demoteOne_cases p (ts.any isTL) (ts.any isOr) with hc | hc
        · rw [hc]; simpa using hp
        · rw [hc]; rfl
      rw [hd]
      simp only [Bool.false_eq_true, if_false]
      simpa using ih

/-- A `TearLine` with no `TearLine` after it is never demoted. -/
theorem demoteOne_keep_tl (p : TokenPair) (hOr : Bool) (h : isTL p = true) :
    demoteOne p false hOr = p := by
  obtain ⟨t, s⟩ := p
  cases t <;> simp only [isTL] at h <;> try simp at h
  simp [demoteOne]

/-! The tokenizer never produces `Area` tokens before the AREA pass, and the
AREA pass produces at most one. -/

/-- Body classification never yields `Area`. -/
theorem classifyPar_ne_area (par : Str) : classifyPar par ≠ Token.area := by
  unfold classifyPar
  split
  · simp
  · split
    · simp
    · split
      · simp
      · split <;> simp

/-- Kludge classification never yields `Area`. -/
theorem classifyKludge_ne_area (sub : Str) : (classifyKludge sub).1 ≠ Token.area := by
  unfold classifyKludge
  split
  · simp
  · split
    · simp
    · split
      · simp
      · split
        · simp
        · split
          · simp
          · split <;> simp

/-- `pushKludge` preserves area-freeness. -/
theorem pushKludge_ne_area (acc : List TokenPair) (sub : Str)
    (h : ∀ p ∈ acc, p.1 ≠ Token.area) :
    ∀ p ∈ pushKludge acc sub, p.1 ≠ Token.area := by
  intro p hp
  unfold pushKludge at hp
  rcases List.mem_append.mp hp with h1 | h1
  · split at h1
    · exact h p (List.dropLast_subset _ h1)
    · exact h p h1
  · simp only [List.mem_singleton] at h1
    subst h1
    exact classifyKludge_ne_area sub

/-- The kludge fold preserves area-freeness. -/
theorem foldl_pushKludge_ne_area (subs : List Str) (acc : List TokenPair)
    (h : ∀ p ∈ acc, p.1 ≠ Token.area) :
    ∀ p ∈ subs.foldl pushKludge acc, p.1 ≠ Token.area := by
  induction subs generalizing acc with
  | nil => exact h
  | cons s subs ih => exact ih _ (pushKludge_ne_area acc s h)

/-- `tokenizePar` preserves area-freeness. -/
theorem tokenizePar_ne_area (acc : List TokenPair) (par : Str)
    (h : ∀ p ∈ acc, p.1 ≠ Token.area) :
    ∀ p ∈ tokenizePar acc par, p.1 ≠ Token.area := by
  unfold tokenizePar
  split
  · exact h
  · refine foldl_pushKludge_ne_area _ _ ?_
    intro p hp
    rcases List.mem_append.mp hp with h1 | h1
    · exact h p h1
    · simp only [List.mem_singleton] at h1
      subst h1
      exact classifyPar_ne_area par

/-- The first tokenizer pass contains no `Area` token. -/
theorem firstPass_ne_area (text : Str) : ∀ p ∈ firstPass text, p.1 ≠ Token.area := by
  unfold firstPass
  generalize (text.splitOn '\n') = pars
  have : ∀ p ∈ ([] : List TokenPair), p.1 ≠ Token.area := by simp
  generalize hacc : ([] : List TokenPair) = acc at this
  clear hacc
  induction pars generalizing acc with
  | nil => exact this
  | cons par pars ih => exact ih _ (tokenizePar_ne_area acc par this)

/-- The pop of a final empty paragraph preserves area-freeness. -/
theorem popLastEmpty_ne_area (ts : List TokenPair) (h : ∀ p ∈ ts, p.1 ≠ Token.area) :
    ∀ p ∈ popLastEmpty ts, p.1 ≠ Token.area := by
  intro p hp
  unfold popLastEmpty at hp
  split at hp
  · exact h p (List.dropLast_subset _ hp)
  · exact h p hp

/-- The demotion pass preserves area-freeness. -/
theorem demotePass_ne_area (ts : List TokenPair) (h : ∀ p ∈ ts, p.1 ≠ Token.area) :
    ∀ p ∈ demotePass ts, p.1 ≠ Token.area := by
  induction ts with
  | nil => simpa [demotePass, demoteRev] using h
  | cons p ts ih =>
    rw [demotePass_cons]
    intro q hq
    rcases List.mem_cons.mp hq with h1 | h1
    · subst h1
      rcases demoteOne_cases p (ts.any isTL) (ts.any isOr) with hc | hc
      · rw [hc]; exact h p (by simp)
      · rw [hc]; simp
    · exact ih (fun r hr => h r (by simp [hr])) q h1

/-- The predicate `isArea` holds exactly on `Area` tokens. -/
theorem isArea_iff (p : TokenPair) : isArea p = true ↔ p.1 = Token.area := by
  obtain ⟨t, s⟩ := p
  cases t <;> simp [isArea]

/-- The AREA pass over an area-free list yields at most one `Area` token. -/
theorem areaPass_countArea (ts : List TokenPair) (h : ∀ p ∈ ts, p.1 ≠ Token.area) :
    (areaPass ts).countP isArea ≤ 1 := by
  induction ts with
  | nil => simp [areaPass]
  | cons p ts ih =>
    obtain ⟨t, s⟩ := p
    unfold areaPass
    split
    · have hz : ts.countP isArea = 0 := by
        rw [List.countP_eq_zero]
        intro a ha hc
        exact h a (by simp [ha]) ((isArea_iff a).mp hc)
      split
      · simp only [List.countP_cons, hz]
        split <;> omega
      · simp only [List.countP_cons, hz]
        split <;> omega
    · have hh : isArea (t, s) = false := by
        rcases Bool.eq_false_or_eq_true (isArea (t, s)) with hb | hb
        · exact absurd ((isArea_iff _).mp hb) (h _ (by simp))
        · exact hb
      simp only [List.countP_cons, hh]
      simp only [Bool.false_eq_true, if_false, Nat.add_zero]
      exact ih fun r hr => h r (by simp [hr])

/-- The AREA pass does not change the number of `Origin` tokens. -/
theorem areaPass_countOr (ts : List TokenPair) :
    (areaPass ts).countP isOr = ts.countP isOr := by
  induction ts with
  | nil => rfl
  | cons p ts ih =>
    obtain ⟨t, s⟩ := p
    unfold areaPass
    split
    · next hps =>
      have ht : t = Token.paragraph := hps.1
      subst ht
      split
      · simp [List.countP_cons, isOr]
      · simp [List.countP_cons]
    · simp only [List.countP_cons, ih]

/-! Field-preservation lemmas for the token loop and the finalization of
`parse_tokens`. -/

/-- The unknown-kludge step never touches the body. -/
theorem kludgeStep_body (st : PTState) (s : Str) :
    (kludgeStep st s).msg.body = st.msg.body := by
  unfold kludgeStep
  repeat' split
  all_goals rfl

/-- The unknown-kludge step never touches the area. -/
theorem kludgeStep_area (st : PTState) (s : Str) :
    (kludgeStep st s).msg.area = st.msg.area := by
  unfold kludgeStep
  repeat' split
  all_goals rfl

/-- The unknown-kludge step never touches the destination user. -/
theorem kludgeStep_toUser (st : PTState) (s : Str) :
    (kludgeStep st s).msg.toUser = st.msg.toUser := by
  unfold kludgeStep
  repeat' split
  all_goals rfl

/-- The unknown-kludge step never touches `reply_serial` or `native_to`. -/
theorem kludgeStep_reply (st : PTState) (s : Str) :
    (kludgeStep st s).msg.replySerial = st.msg.replySerial ∧
      (kludgeStep st s).nativeTo = st.nativeTo := by
  unfold kludgeStep
  repeat' split
  all_goals exact ⟨rfl, rfl⟩

/-- One loop step keeps the area unless the token is an `Area` token. -/
theorem parseStep_area (st : PTState) (t : TokenPair) (h : t.1 ≠ Token.area) :
    (parseStep st t).msg.area = st.msg.area := by
  obtain ⟨tk, s⟩ := t
  cases tk
  case area => exact absurd rfl h
  case kludge => exact kludgeStep_area st s
  all_goals
    simp only [parseStep]
    repeat' split
    all_goals rfl

/-- The token loop keeps the area when no `Area` token occurs. -/
theorem foldl_parseStep_area (tokens : List TokenPair) (st : PTState)
    (h : ∀ p ∈ tokens, p.1 ≠ Token.area) :
    (tokens.foldl parseStep st).msg.area = st.msg.area := by
  induction tokens generalizing st with
  | nil => rfl
  | cons t ts ih =>
    rw [List.foldl_cons, ih _ (fun p hp => h p (by simp [hp])),
      parseStep_area st t (h t (by simp))]

/-- The token loop never changes the destination user's name. -/
theorem parseStep_toUser_name (st : PTState) (t : TokenPair) :
    (parseStep st t).msg.toUser.name = st.msg.toUser.name := by
  obtain ⟨tk, s⟩ := t
  cases tk
  case kludge =>
    exact congrArg User.name (kludgeStep_toUser st s)
  all_goals
    simp only [parseStep]
    repeat' split
    all_goals rfl

/-- The token loop never changes the destination user's external address. -/
theorem parseStep_toUser_extAddr (st : PTState) (t : TokenPair) :
    (parseStep st t).msg.toUser.extAddr = st.msg.toUser.extAddr := by
  obtain ⟨tk, s⟩ := t
  cases tk
  case kludge =>
    exact congrArg User.extAddr (kludgeStep_toUser st s)
  all_goals
    simp only [parseStep]
    repeat' split
    all_goals rfl

/-- Loop invariant: when no REPLY has set `reply_serial`, `native_to` is
still unset. -/
theorem parseStep_reply_inv (st : PTState) (t : TokenPair)
    (h : st.msg.replySerial = none → st.nativeTo = none) :
    (parseStep st t).msg.replySerial = none → (parseStep st t).nativeTo = none := by
  obtain ⟨tk, s⟩ := t
  cases tk
  case kludge =>
    obtain ⟨h1, h2⟩ := kludgeStep_reply st s
    simp only [parseStep]
    rw [h1, h2]
    exact h
  all_goals
    simp only [parseStep]
    repeat' split
    all_goals first
      | exact h
      | (intro hc; exact absurd hc (by simp))

/-- The loop-level version of the previous invariant. -/
theorem foldl_parseStep_reply_inv (tokens : List TokenPair) (st : PTState)
    (h : st.msg.replySerial = none → st.nativeTo = none) :
    (tokens.foldl parseStep st).msg.replySerial = none →
      (tokens.foldl parseStep st).nativeTo = none := by
  induction tokens generalizing st with
  | nil => exact h
  | cons t ts ih => exact ih _ (parseStep_reply_inv st t h)

/-- The loop-level version of destination-field preservation. -/
theorem foldl_parseStep_toUser_fields (tokens : List TokenPair) (st : PTState) :
    (tokens.foldl parseStep st).msg.toUser.name = st.msg.toUser.name ∧
      (tokens.foldl parseStep st).msg.toUser.extAddr = st.msg.toUser.extAddr := by
  induction tokens generalizing st with
  | nil => exact ⟨rfl, rfl⟩
  | cons t ts ih =>
    obtain ⟨h3, h4⟩ := ih (parseStep st t)
    exact ⟨h3.trans (parseStep_toUser_name st t), h4.trans (parseStep_toUser_extAddr st t)⟩

/-- The INTL / FMPT / TOPT correction never touches the body. -/
theorem intlStep_body (m : Message) (s : Str) : (intlStep m s).body = m.body := by
  unfold intlStep
  dsimp only
  repeat' split
  all_goals rfl

/-- The INTL / FMPT / TOPT correction never touches the area. -/
theorem intlStep_area (m : Message) (s : Str) : (intlStep m s).area = m.area := by
  unfold intlStep
  dsimp only
  repeat' split
  all_goals rfl

/-- A kludge that is neither `INTL` nor `TOPT` leaves the destination user
unchanged. -/
theorem intlStep_toUser (m : Message) (s : Str)
    (h : ¬(5 < s.length ∧ (s.take 5 = kwINTL ∨ s.take 5 = kwTOPT))) :
    (intlStep m s).toUser = m.toUser := by
  unfold intlStep
  split
  · next hlen =>
    split
    · next hintl => exact absurd ⟨hlen, Or.inl hintl⟩ h
    · split
      · split <;> rfl
      · split
        · next htopt => exact absurd ⟨hlen, Or.inr htopt⟩ h
        · rfl
  · rfl

/-- Body preservation through the correction fold. -/
theorem intlFold_body (l : List Str) (m : Message) :
    (l.foldl intlStep m).body = m.body := by
  induction l generalizing m with
  | nil => rfl
  | cons s l ih => rw [List.foldl_cons, ih, intlStep_body]

/-- Area preservation through the correction fold. -/
theorem intlFold_area (l : List Str) (m : Message) :
    (l.foldl intlStep m).area = m.area := by
  induction l generalizing m with
  | nil => rfl
  | cons s l ih => rw [List.foldl_cons, ih, intlStep_area]

/-- Destination preservation through the correction fold when no `INTL` or
`TOPT` kludge occurs. -/
theorem intlFold_toUser (l : List Str) (m : Message)
    (h : ∀ s ∈ l, ¬(5 < s.length ∧ (s.take 5 = kwINTL ∨ s.take 5 = kwTOPT))) :
    (l.foldl intlStep m).toUser = m.toUser := by
  induction l generalizing m with
  | nil => rfl
  | cons s l ih =>
    rw [List.foldl_cons, ih _ (fun x hx => h x (by simp [hx])),
      intlStep_toUser m s (h s (by simp))]

/-- The finalization preserves the area computed by the loop. -/
theorem parseFinish_area (st : PTState) : (parseFinish st).area = st.msg.area := by
  simp only [parseFinish]
  repeat' split
  all_goals simp [intlFold_area]

/-- The body after finalization is the loop body with one trailing newline
stripped. -/
theorem parseFinish_body (st : PTState) :
    (parseFinish st).body =
      if st.msg.body.getLast? = some '\n' then st.msg.body.dropLast
      else st.msg.body := by
  simp only [parseFinish]
  repeat' split
  all_goals simp_all [intlFold_body]

/-- One loop step only ever appends to the body. -/
theorem parseStep_infixKeep (st : PTState) (t : TokenPair) (s0 : Str)
    (h : s0 <:+: st.msg.body) : s0 <:+: (parseStep st t).msg.body := by
  obtain ⟨tk, s⟩ := t
  cases tk
  case kludge =>
    simp only [parseStep]
    rw [kludgeStep_body]
    exact h
  case paragraph =>
    simp only [parseStep]
    refine h.trans ?_
    rw [List.append_assoc]
    exact (List.prefix_append _ _).isInfix
  all_goals
    simp only [parseStep]
    repeat' split
    all_goals exact h

/-- Infixes of the body survive the whole token loop. -/
theorem foldl_parseStep_infixKeep (tokens : List TokenPair) (st : PTState) (s0 : Str)
    (h : s0 <:+: st.msg.body) : s0 <:+: (tokens.foldl parseStep st).msg.body := by
  induction tokens generalizing st with
  | nil => exact h
  | cons t ts ih => exact ih _ (parseStep_infixKeep st t s0 h)

/-- Every `Paragraph` token's text, with its newline, lands in the loop
body. -/
theorem foldl_parseStep_para (tokens : List TokenPair) (st : PTState) (s : Str)
    (h : (Token.paragraph, s) ∈ tokens) :
    (s ++ ['\n']) <:+: (tokens.foldl parseStep st).msg.body := by
  induction tokens generalizing st with
  | nil => exact absurd h (List.not_mem_nil _)
  | cons t ts ih =>
    rcases List.mem_cons.mp h with h1 | h1
    · subst h1
      rw [List.foldl_cons]
      apply foldl_parseStep_infixKeep
      show (s ++ ['\n']) <:+: st.msg.body ++ s ++ ['\n']
      rw [List.append_assoc]
      exact (List.suffix_append _ _).isInfix
    · exact ih _ h1

/-- Stripping the final element preserves infixes that carried one more
element. -/
theorem infix_dropLast {s l : Str} (c : Char) (h : (s ++ [c]) <:+: l) :
    s <:+: l.dropLast := by
  obtain ⟨pre, suf, heq⟩ := h
  subst heq
  rw [show pre ++ (s ++ [c]) ++ suf = (pre ++ s) ++ (c :: suf) by simp]
  rw [List.dropLast_append_of_ne_nil _ (by simp)]
  exact ⟨pre, (c :: suf).dropLast, by simp⟩

/-- Every `Paragraph` token's text appears verbatim in the final message
body. -/
theorem parse_tokens_para_infixes (tokens : List TokenPair) (msg : Message) (s : Str)
    (h : (Token.paragraph, s) ∈ tokens) : s <:+: (parse_tokens tokens msg).body := by
  have h1 := foldl_parseStep_para tokens ⟨msg, none, none⟩ s h
  unfold parse_tokens
  rw [parseFinish_body]
  split
  · exact infix_dropLast '\n' h1
  · exact ((List.prefix_append s ['\n']).isInfix).trans h1

/-- A concrete message used to instantiate universally quantified claims. -/
def sampleMsg : Message :=
  init_message "2020-01-01T00:00:00".toList Address.empty Address.empty
    "A".toList "B".toList "S".toList 0

/-- Claim C4 — counterexample.  The text `"---\n---"` tokenizes to two
surviving `TearLine` tokens (there is no origin, so neither is demoted),
refuting "at most one TearLine token per message". -/
theorem c4_counterexample :
    (tokenize_msg_body ("---\n---".toList)).countP isTL = 2 := by rfl

/-- Claim C4 (amended): the tokenizer yields at most one `Area` and at most
one `Origin` token; the demotion pass preserves every token's text and
rewrites tags only to `Paragraph` (so more than one `TearLine` can remain);
and every `Paragraph` token's text appears verbatim in the message body. -/
theorem c4_amended :
    (∀ text : Str, (tokenize_msg_body text).countP isArea ≤ 1) ∧
    (∀ text : Str, (tokenize_msg_body text).countP isOr ≤ 1) ∧
    (∀ ts : List TokenPair, (demotePass ts).map Prod.snd = ts.map Prod.snd) ∧
    (∀ (ts : List TokenPair) (i : Nat) (p : TokenPair), ts[i]? = some p →
      (demotePass ts)[i]? = some p ∨ (demotePass ts)[i]? = some (Token.paragraph, p.2)) ∧
    (∀ (tokens : List TokenPair) (msg : Message) (s : Str),
      (Token.paragraph, s) ∈ tokens → s <:+: (parse_tokens tokens msg).body) := by
  refine ⟨?_, ?_, ?_, ?_, ?_⟩
  · intro text
    unfold tokenize_msg_body
    exact areaPass_countArea _
      (demotePass_ne_area _ (popLastEmpty_ne_area _ (firstPass_ne_area text)))
  · intro text
    unfold tokenize_msg_body
    rw [areaPass_countOr]
    exact demotePass_countOr _
  · exact demotePass_snd
  · intro ts i p hp
    have hc := demotePass_getElem ts i
    rw [hp] at hc
    rcases demoteOne_cases p ((ts.drop (i + 1)).any isTL) ((ts.drop (i + 1)).any isOr)
      with hd | hd
    · left; rw [hc]; exact congrArg some hd
    · right; rw [hc]; exact congrArg some hd
  · exact parse_tokens_para_infixes

/-- Claim C4 — witness of the amended statement at concrete inputs. -/
theorem c4_amended_witness :
    ("hello".toList <:+: (parse_tokens [(Token.paragraph, "hello".toList)] sampleMsg).body) ∧
      (tokenize_msg_body ("x".toList)).countP isArea ≤ 1 :=
  ⟨c4_amended.2.2.2.2 _ sampleMsg _ (by simp), c4_amended.1 _⟩

/-- Claim C5 — counterexample.  In `"--- A\n * Origin: T\n--- B"` the
claim says the surviving tear line should be `"--- A"`, the last TearLine at
or before the origin; instead `"--- A"` is demoted to `Paragraph` and the
TearLine after the origin survives. -/
theorem c5_counterexample :
    tokenize_msg_body ("--- A\n * Origin: T\n--- B".toList) =
      [(Token.paragraph, "--- A".toList), (Token.origin 11, " * Origin: T".toList),
        (Token.tearLine 4, "--- B".toList)] := by rfl

/-- Claim C5 (amended): the demotion pass preserves length and demotes the
token at `i` exactly according to the tokens after `i` — a `TearLine` is
demoted iff both another `TearLine` and an `Origin` occur later; in
particular, the last `TearLine` always survives, even when it lies after the
chosen origin. -/
theorem c5_amended :
    (∀ ts : List TokenPair, (demotePass ts).length = ts.length) ∧
    (∀ (ts : List TokenPair) (i : Nat),
      (demotePass ts)[i]? = (ts[i]?).map fun p =>
        demoteOne p ((ts.drop (i + 1)).any isTL) ((ts.drop (i + 1)).any isOr)) ∧
    (∀ (ts : List TokenPair) (i : Nat) (p : TokenPair),
      ts[i]? = some p → isTL p = true → (ts.drop (i + 1)).any isTL = false →
      (demotePass ts)[i]? = some p) := by
  refine ⟨demotePass_length, demotePass_getElem, ?_⟩
  intro ts i p hp htl hafter
  have hc := demotePass_getElem ts i
  rw [hp, hafter] at hc
  rw [hc]
  exact congrArg some (demoteOne_keep_tl p _ htl)

/-- Claim C5 — witness of the amended statement at a concrete input. -/
theorem c5_amended_witness :
    (demotePass [(Token.tearLine 4, "--- B".toList)])[0]? =
      some (Token.tearLine 4, "--- B".toList) :=
  c5_amended.2.2 _ 0 _ rfl rfl rfl

/-- Claim C9: a message whose tokenized body contains no `Area` token keeps
the initial `Netmail` area through `parse_tokens`, and the orchestrator files
`Netmail` messages under the `netmail` database name. -/
theorem c9_netmail_default :
    ∀ (text posted : Str) (fa ta : Address) (fn tn sj : Str) (fl : Nat),
      (∀ p ∈ tokenize_msg_body text, p.1 ≠ Token.area) →
      (parse_tokens (tokenize_msg_body text) (init_message posted fa ta fn tn sj fl)).area =
          Area.netmail ∧
        areaDbName Area.netmail = "netmail".toList := by
  intro text posted fa ta fn tn sj fl h
  refine ⟨?_, rfl⟩
  unfold parse_tokens
  rw [parseFinish_area, foldl_parseStep_area _ _ h]
  rfl

/-- Claim C9 — witness at a concrete input. -/
theorem c9_netmail_default_witness :
    (parse_tokens (tokenize_msg_body "hello".toList)
        (init_message [] Address.empty Address.empty [] [] [] 0)).area = Area.netmail ∧
      areaDbName Area.netmail = "netmail".toList :=
  c9_netmail_default _ _ _ _ _ _ _ _ (by decide)

/-! Further preservation lemmas for the finalization, used by the address
reconciliation claims. -/

/-- A kludge whose first five characters are none of `INTL `, `FMPT `,
`TOPT ` leaves the message unchanged. -/
theorem intlStep_noop (m : Message) (s : Str)
    (h : ¬(s.take 5 = kwINTL ∨ s.take 5 = kwFMPT ∨ s.take 5 = kwTOPT)) :
    intlStep m s = m := by
  unfold intlStep
  split
  · split
    · next h1 => exact absurd (Or.inl h1) h
    · split
      · next h1 => exact absurd (Or.inr (Or.inl h1)) h
      · split
        · next h1 => exact absurd (Or.inr (Or.inr h1)) h
        · rfl
  · rfl

/-- The correction step never touches `reply_serial` or the kludges. -/
theorem intlStep_misc (m : Message) (s : Str) :
    (intlStep m s).replySerial = m.replySerial ∧ (intlStep m s).kludges = m.kludges ∧
      (intlStep m s).toUser.extAddr = m.toUser.extAddr := by
  unfold intlStep
  dsimp only
  repeat' split
  all_goals exact ⟨rfl, rfl, rfl⟩

/-- Fold version of the previous lemma. -/
theorem intlFold_misc (l : List Str) (m : Message) :
    (l.foldl intlStep m).replySerial = m.replySerial ∧
      (l.foldl intlStep m).kludges = m.kludges ∧
      (l.foldl intlStep m).toUser.extAddr = m.toUser.extAddr := by
  induction l generalizing m with
  | nil => exact ⟨rfl, rfl, rfl⟩
  | cons s l ih =>
    obtain ⟨a1, a2, a3⟩ := intlStep_misc m s
    obtain ⟨b1, b2, b3⟩ := ih (intlStep m s)
    exact ⟨b1.trans a1, b2.trans a2, b3.trans a3⟩

/-- The finalization preserves `reply_serial`. -/
theorem parseFinish_replySerial (st : PTState) :
    (parseFinish st).replySerial = st.msg.replySerial := by
  simp only [parseFinish]
  repeat' split
  all_goals simp_all [(intlFold_misc _ _).1]

/-- The finalization preserves the structured kludges. -/
theorem parseFinish_kludges (st : PTState) :
    (parseFinish st).kludges = st.msg.kludges := by
  simp only [parseFinish]
  repeat' split
  all_goals simp_all [(intlFold_misc _ _).2.1]

/-- With no REPLY seen and no `INTL`/`TOPT` kludge, the finalization yields
an empty destination address and clears nothing into `ext_addr`. -/
theorem parseFinish_to_empty (st : PTState) (hnt : st.nativeTo = none)
    (hext : st.msg.toUser.extAddr = none)
    (hno : ∀ s ∈ st.msg.kludges.custom.getD [],
      ¬(5 < s.length ∧ (s.take 5 = kwINTL ∨ s.take 5 = kwTOPT))) :
    (parseFinish st).toUser.addr = Address.empty ∧
      (parseFinish st).toUser.extAddr = none := by
  simp only [parseFinish, hnt, Option.getD_none]
  repeat' split
  all_goals
    first
      | exact ⟨rfl, rfl⟩
      | exact ⟨rfl, hext⟩
      | (rw [intlFold_toUser _ _ hno]; exact ⟨rfl, rfl⟩)
      | (rw [intlFold_toUser _ _ hno]; exact ⟨rfl, hext⟩)

/-- A synthesized message addressed to `"All"` used in the broadcast-rule
counterexample. -/
def sampleAllMsg : Message :=
  init_message "x".toList ⟨2, 5020, 400, 0, none⟩ ⟨2, 5030, 200, 0, none⟩
    "John".toList "All".toList "S".toList 0

/-- Claim C7 — counterexample.  A netmail message with `to.name = "All"`,
no REPLY, and an `INTL` kludge satisfies every hypothesis of the claim, yet
its final `to.address` is `1:2/3` rather than the empty address: the
`INTL`/`TOPT` correction runs after the broadcast reset and overwrites it. -/
theorem c7_counterexample :
    (parse_tokens [(Token.kludge, "INTL 1:2/3 4:5/6".toList)] sampleAllMsg).toUser.addr =
        ⟨1, 2, 3, 0, none⟩ ∧
      asciiLower (rustTrim sampleAllMsg.toUser.name) = "all".toList ∧
      (parse_tokens [(Token.kludge, "INTL 1:2/3 4:5/6".toList)] sampleAllMsg).replySerial =
        none ∧
      (⟨1, 2, 3, 0, none⟩ : Address) ≠ Address.empty := by
  refine ⟨by rfl, by rfl, by rfl, by decide⟩

/-- Claim C7 (amended): for a synthesized message (initial `to.ext_addr`
empty) whose trimmed lowercased `to.name` is `"all"` and which ends up with
no REPLY, the final `to.address` is empty and `to.ext_addr` is `None` —
provided no `INTL` or `TOPT` custom kludge follows, since those are applied
after the broadcast reset and can overwrite the destination address. -/
theorem c7_amended :
    ∀ (tokens : List TokenPair) (msg : Message),
      msg.toUser.extAddr = none →
      asciiLower (rustTrim msg.toUser.name) = "all".toList →
      (parse_tokens tokens msg).replySerial = none →
      (∀ s ∈ (parse_tokens tokens msg).kludges.custom.getD [],
        ¬(5 < s.length ∧ (s.take 5 = kwINTL ∨ s.take 5 = kwTOPT))) →
      (parse_tokens tokens msg).toUser.addr = Address.empty ∧
        (parse_tokens tokens msg).toUser.extAddr = none := by
  intro tokens msg hext _hall hreply hno
  unfold parse_tokens at hreply hno ⊢
  rw [parseFinish_replySerial] at hreply
  rw [parseFinish_kludges] at hno
  have hnt : (tokens.foldl parseStep ⟨msg, none, none⟩).nativeTo = none :=
    foldl_parseStep_reply_inv tokens ⟨msg, none, none⟩ (fun _ => rfl) hreply
  have hext2 : (tokens.foldl parseStep ⟨msg, none, none⟩).msg.toUser.extAddr = none :=
    (foldl_parseStep_toUser_fields tokens ⟨msg, none, none⟩).2.trans hext
  exact parseFinish_to_empty _ hnt hext2 hno

/-- Claim C7 — witness of the amended statement at a concrete input. -/
theorem c7_amended_witness :
    (parse_tokens [] sampleAllMsg).toUser.addr = Address.empty ∧
      (parse_tokens [] sampleAllMsg).toUser.extAddr = none :=
  c7_amended [] sampleAllMsg rfl (by rfl) (by rfl) (by decide)

/-- Claim C6 — counterexample.  With a valid native MSGID (`2:5020/400`)
followed by a REPLYTO kludge (`2:46/128`), the synthesized `from` address is
the REPLYTO address, not the MSGID address: both writes land in the same
`native_from` slot and the last one wins, so the result depends on order. -/
theorem c6_counterexample :
    (parse_tokens
          [(Token.msgId, "2:5020/400 12345678".toList),
            (Token.kludge, "REPLYTO 2:46/128".toList)] sampleMsg).fromUser.addr =
        ⟨2, 46, 128, 0, none⟩ ∧
      (⟨2, 46, 128, 0, none⟩ : Address) ≠ ⟨2, 5020, 400, 0, none⟩ := by
  refine ⟨by rfl, by decide⟩

/-- Claim C6 (amended): MSGID and REPLYTO write the same `native_from`
accumulator, so the one parsed later determines the `from` address — REPLYTO
wins when it follows the MSGID, and MSGID wins when it follows the
REPLYTO. -/
theorem c6_amended :
    ∀ (msg : Message) (s1 r2 : Str) (a1 a2 : Address) (ser : Nat) (nm : Str),
      msg.kludges.custom = none →
      MessageId.fromStr (rustTrim s1) = .ok ⟨.native a1, ser⟩ →
      parse_replyto (rustTrim r2) = .ok (a2, nm) →
      (parse_tokens [(Token.msgId, s1), (Token.kludge, kwREPLYTO2 ++ r2)] msg).fromUser.addr =
          a2 ∧
        (parse_tokens [(Token.kludge, kwREPLYTO2 ++ r2), (Token.msgId, s1)] msg).fromUser.addr =
          a1 := by
  intro msg s1 r2 a1 a2 ser nm hcust hmsgid hreplyto
  have hstep2 : ∀ st : PTState, st.msg.kludges.custom = none →
      kludgeStep st (kwREPLYTO2 ++ r2) =
        { st with
          nativeFrom := some a2
          msg.kludges.custom := some [kwREPLYTO2 ++ r2] } := by
    intro st hc
    unfold kludgeStep
    rw [show kwREPLYADDR.isPrefixOf (kwREPLYTO2 ++ r2) = false from rfl]
    rw [show kwREPLYADDR2.isPrefixOf (kwREPLYTO2 ++ r2) = false from rfl]
    rw [show kwREPLYTO.isPrefixOf (kwREPLYTO2 ++ r2) = false from rfl]
    rw [show kwREPLYTO2.isPrefixOf (kwREPLYTO2 ++ r2) = true from
      (List.isPrefixOf_iff_prefix.mpr (List.prefix_append _ _) : _)]
    simp only [Bool.false_eq_true, if_false, if_true]
    rw [show (kwREPLYTO2 ++ r2).drop kwREPLYTO2.length = r2 from List.drop_left _ _]
    rw [hreplyto, hc]
    rfl
  have hnoop : ∀ m : Message, List.foldl intlStep m [kwREPLYTO2 ++ r2] = m := by
    intro m
    rw [List.foldl_cons, List.foldl_nil]
    apply intlStep_noop
    rw [show (kwREPLYTO2 ++ r2).take 5 = "REPLY".toList from rfl]
    decide
  constructor
  · show (parseFinish (parseStep (parseStep ⟨msg, none, none⟩ (Token.msgId, s1))
      (Token.kludge, kwREPLYTO2 ++ r2))).fromUser.addr = a2
    rw [show parseStep ⟨msg, none, none⟩ (Token.msgId, s1) =
        ⟨{ msg with msgidSerial := ser }, some a1, none⟩ by
      simp only [parseStep, hmsgid]]
    rw [show (parseStep (⟨{ msg with msgidSerial := ser }, some a1, none⟩ : PTState)
        (Token.kludge, kwREPLYTO2 ++ r2)) =
        kludgeStep ⟨{ msg with msgidSerial := ser }, some a1, none⟩ (kwREPLYTO2 ++ r2)
      from rfl]
    rw [hstep2 _ hcust]
    simp only [parseFinish]
    repeat' split
    all_goals simp_all [hnoop]
  · show (parseFinish (parseStep (parseStep ⟨msg, none, none⟩
      (Token.kludge, kwREPLYTO2 ++ r2)) (Token.msgId, s1))).fromUser.addr = a1
    rw [show parseStep ⟨msg, none, none⟩ (Token.kludge, kwREPLYTO2 ++ r2) =
        kludgeStep ⟨msg, none, none⟩ (kwREPLYTO2 ++ r2) from rfl]
    rw [hstep2 _ hcust]
    rw [show parseStep ⟨{ msg with kludges.custom := some [kwREPLYTO2 ++ r2] }, some a2, none⟩
        (Token.msgId, s1) =
        ⟨{ msg with kludges.custom := some [kwREPLYTO2 ++ r2], msgidSerial := ser },
          some a1, none⟩ by
      simp only [parseStep, hmsgid]]
    simp only [parseFinish]
    repeat' split
    all_goals simp_all [hnoop]

/-- Claim C6 — witness of the amended statement at concrete inputs. -/
theorem c6_amended_witness :
    (parse_tokens [(Token.msgId, "2:5020/400 12345678".toList),
          (Token.kludge, ("REPLYTO ".toList ++ "2:46/128".toList))] sampleMsg).fromUser.addr =
        ⟨2, 46, 128, 0, none⟩ ∧
      (parse_tokens [(Token.kludge, ("REPLYTO ".toList ++ "2:46/128".toList)),
          (Token.msgId, "2:5020/400 12345678".toList)] sampleMsg).fromUser.addr =
        ⟨2, 5020, 400, 0, none⟩ :=
  c6_amended sampleMsg _ _ _ _ 305419896 [] rfl (by rfl) (by rfl)

/-! Concrete packet bytes for the packet-decoder claim. -/

/-- A valid 58-byte FTS-0001 header: `2:5020/100 → 2:5030/200`, created
2020-01-02 03:04:05, empty password. -/
def pktHeader : List Nat :=
  [100, 0, 200, 0,
   228, 7, 0, 0, 2, 0, 3, 0, 4, 0, 5, 0,
   0, 0, 2, 0,
   156, 19, 166, 19,
   255, 1,
   0, 0, 0, 0, 0, 0, 0, 0,
   2, 0, 2, 0,
   0, 0,
   1, 0,
   16, 9,
   1, 0,
   0, 0, 0, 0,
   0, 0, 0, 0,
   0, 0, 0, 0]

/-- The package decoded from `pktHeader`, parameterized by the message list
read after the header. -/
def pktAfter (msgs : List RawMessage) : Package where
  orig := ⟨2, 5020, 100, 0⟩
  dest := ⟨2, 5030, 200, 0⟩
  created := ⟨2020, 1, 2, 3, 4, 5⟩
  password := []
  rate := 0
  ver := 2
  prodCode := 255
  serialNo := 1
  auxNet := 0
  capWord := 1
  hiProductCode := 16
  minorProductRev := 9
  messages := msgs

/-- One well-formed message record: type magic 2, all node/net fields 40,
flags 40, and the five NUL-terminated strings. -/
def msgRecBytes : List Nat :=
  [2, 0, 40, 0, 40, 0, 40, 0, 40, 0, 40, 0, 0, 0] ++
  (("28 Feb 20  14:00:18".toList.map Char.toNat) ++ [0]) ++
  (("All".toList.map Char.toNat) ++ [0]) ++
  (("John Doe".toList.map Char.toNat) ++ [0]) ++
  (("Ping".toList.map Char.toNat) ++ [0]) ++
  (("Pong".toList.map Char.toNat) ++ [0])

/-- The decoded form of `msgRecBytes` under the zones of `pktHeader`. -/
def rawMsg1 : RawMessage where
  posted := "28 Feb 20  14:00:18".toList.map Char.toNat
  fromUser := ⟨⟨2, 40, 40, 0⟩, "John Doe".toList.map Char.toNat⟩
  toUser := ⟨⟨2, 40, 40, 0⟩, "All".toList.map Char.toNat⟩
  flags := 40
  subj := "Ping".toList.map Char.toNat
  text := "Pong".toList.map Char.toNat

/-- Reading the fixed header consumes exactly `pktHeader` and hands the rest
to the message loop. -/
theorem pkg_read_reduces (rest : List Nat) :
    Package.read (pktHeader ++ rest) =
      match readMessages 2 2 [] rest with
      | .error e => .error e
      | .ok msgs => .ok (pktAfter msgs) := rfl

/-- The message loop accepts any non-2 word followed by nothing: the drain
is empty and the loop breaks successfully. -/
theorem readMessages_stop (z1 z2 : Nat) (acc : List RawMessage) (b0 b1 : Nat)
    (h : ¬(b0 + 256 * b1 = 2)) : readMessages z1 z2 acc [b0, b1] = .ok acc := by
  rw [readMessages]
  simp [readU16le, h]

/-- A non-2 word followed by at least one byte: the drain is nonzero, the
fall-through record read hits end-of-input, and the whole read errors. -/
theorem readMessages_drain_err (z1 z2 : Nat) (acc : List RawMessage) (b0 b1 c : Nat)
    (cs : List Nat) (h : ¬(b0 + 256 * b1 = 2)) :
    readMessages z1 z2 acc (b0 :: b1 :: c :: cs) = .error .ioEof := by
  rw [readMessages]
  simp [readU16le, h]
  rfl

/-- A clean end-of-stream before any type word exits the loop successfully. -/
theorem readMessages_eof (z1 z2 : Nat) (acc : List RawMessage) :
    readMessages z1 z2 acc [] = .ok acc := by
  rw [readMessages]
  rfl

/-- A type word of 2 reads one record and continues the loop behind it. -/
theorem readMessages_record (z1 z2 : Nat) (acc : List RawMessage) (b0 b1 : Nat)
    (rest : List Nat) (hw : b0 + 256 * b1 = 2) (m : RawMessage) (rest2 : List Nat)
    (hrec : read_one_message z1 z2 rest = .ok (m, rest2)) :
    readMessages z1 z2 acc (b0 :: b1 :: rest) = readMessages z1 z2 (acc ++ [m]) rest2 := by
  rw [readMessages]
  simp only [readU16le, hw]
  split
  · rename_i heq
    exact absurd rfl heq
  · split
    · rename_i heq
      rw [hrec] at heq
      cases heq
    · rename_i m2 rest3 heq
      rw [hrec] at heq
      injection heq with heq
      injection heq with e1 e2
      subst e1
      subst e2
      rfl

/-- Claim C8 — counterexample.  A packet whose message area is exactly the
end-of-packet marker `0` followed by one residual byte: the claim says the
marker stops parsing and `Package::read` still returns the messages decoded
so far, but the code drains the residue, emits the warning, and then reads
the next record from the drained reader, so `Package::read` errors. -/
theorem c8_counterexample :
    Package.read (pktHeader ++ [0, 0, 170]) = .error .ioEof := by
  rw [show (pktHeader ++ [0, 0, 170] : List Nat) = pktHeader ++ ([0, 0, 170] : List Nat)
    from rfl, pkg_read_reduces, readMessages_drain_err 2 2 [] 0 0 170 [] (by decide)]

/-- Claim C8 (amended): after the header the loop reads records while the
next u16 is 2; on any other word (including the 0 marker) the remaining
bytes are drained — an empty drain breaks the loop and the read succeeds with
the messages decoded so far, a nonempty drain makes the fall-through record
read fail at end-of-input so `Package::read` returns an error; a clean
end-of-stream also succeeds. -/
theorem c8_amended :
    (∀ (z1 z2 : Nat) (acc : List RawMessage) (b0 b1 : Nat), ¬(b0 + 256 * b1 = 2) →
      readMessages z1 z2 acc [b0, b1] = .ok acc) ∧
    (∀ (z1 z2 : Nat) (acc : List RawMessage) (b0 b1 c : Nat) (cs : List Nat),
      ¬(b0 + 256 * b1 = 2) →
      readMessages z1 z2 acc (b0 :: b1 :: c :: cs) = .error .ioEof) ∧
    (∀ (z1 z2 : Nat) (acc : List RawMessage), readMessages z1 z2 acc [] = .ok acc) ∧
    Package.read (pktHeader ++ [0, 0]) = .ok (pktAfter []) ∧
    Package.read (pktHeader ++ msgRecBytes ++ [0, 0]) = .ok (pktAfter [rawMsg1]) := by
  refine ⟨readMessages_stop, readMessages_drain_err, readMessages_eof, ?_, ?_⟩
  · rw [pkg_read_reduces, readMessages_stop 2 2 [] 0 0 (by decide)]
  · rw [List.append_assoc, pkg_read_reduces]
    rw [show (msgRecBytes ++ [0, 0] : List Nat) =
        (2 : Nat) :: (0 : Nat) :: (msgRecBytes.drop 2 ++ [0, 0]) from rfl]
    rw [readMessages_record 2 2 [] 2 0 _ (by decide) rawMsg1 [0, 0] (by rfl)]
    rw [List.nil_append, readMessages_stop 2 2 [rawMsg1] 0 0 (by decide)]

/-- Claim C8 — witness of the amended statement at a concrete input. -/
theorem c8_amended_witness :
    readMessages 0 0 [] [7, 0, 9] = .error .ioEof :=
  c8_amended.2.1 0 0 [] 7 0 9 [] (by decide)

/-! Table-preservation lemmas for the message-base getters. -/

/-- The subject lookup only touches the `subjects` table. -/
theorem get_subj_id_tables (db : DB) (s : Str) :
    (get_subj_id db s).2.messages = db.messages ∧
      (get_subj_id db s).2.seenBys = db.seenBys ∧
      (get_subj_id db s).2.paths = db.paths := by
  unfold get_subj_id
  split <;> exact ⟨rfl, rfl, rfl⟩

/-- The user lookup only touches the `users` table. -/
theorem get_user_id_tables (db : DB) (u : User) :
    (get_user_id db u).2.messages = db.messages ∧
      (get_user_id db u).2.seenBys = db.seenBys ∧
      (get_user_id db u).2.paths = db.paths := by
  unfold get_user_id
  split <;> exact ⟨rfl, rfl, rfl⟩

/-- The to-user resolution only touches the `users` table. -/
theorem get_to_id_tables (db : DB) (msg : Message) :
    (get_to_id db msg).2.messages = db.messages ∧
      (get_to_id db msg).2.seenBys = db.seenBys ∧
      (get_to_id db msg).2.paths = db.paths := by
  unfold get_to_id
  dsimp only
  split
  · exact ⟨rfl, rfl, rfl⟩
  · exact get_user_id_tables db msg.toUser

/-- The software lookup only touches the `software` table. -/
theorem get_software_id_tables (db : DB) (s : Str) :
    (get_software_id db s).2.messages = db.messages ∧
      (get_software_id db s).2.seenBys = db.seenBys ∧
      (get_software_id db s).2.paths = db.paths := by
  unfold get_software_id
  split <;> exact ⟨rfl, rfl, rfl⟩

/-- The optional software lookup only touches the `software` table. -/
theorem get_opt_software_id_tables (db : DB) (o : Option Str) :
    (get_opt_software_id db o).2.messages = db.messages ∧
      (get_opt_software_id db o).2.seenBys = db.seenBys ∧
      (get_opt_software_id db o).2.paths = db.paths := by
  cases o
  · exact ⟨rfl, rfl, rfl⟩
  · exact get_software_id_tables db _

/-- The tear-line lookup only touches the `tear_lines` table. -/
theorem get_tear_line_id_tables (db : DB) (s : Str) :
    (get_tear_line_id db s).2.messages = db.messages ∧
      (get_tear_line_id db s).2.seenBys = db.seenBys ∧
      (get_tear_line_id db s).2.paths = db.paths := by
  unfold get_tear_line_id
  split <;> exact ⟨rfl, rfl, rfl⟩

/-- The origin lookup only touches the `origins` table. -/
theorem get_origin_id_tables (db : DB) (s : Str) :
    (get_origin_id db s).2.messages = db.messages ∧
      (get_origin_id db s).2.seenBys = db.seenBys ∧
      (get_origin_id db s).2.paths = db.paths := by
  unfold get_origin_id
  split <;> exact ⟨rfl, rfl, rfl⟩

/-- The seen-by lookup touches neither `messages` nor `paths`. -/
theorem get_seenby_id_tables (db : DB) (x : Option (List (Nat × Nat))) :
    (get_seenby_id db x).2.messages = db.messages ∧
      (get_seenby_id db x).2.paths = db.paths := by
  unfold get_seenby_id
  repeat' split
  all_goals exact ⟨rfl, rfl⟩

/-- The path lookup touches neither `messages` nor `seen_bys`. -/
theorem get_path_id_tables (db : DB) (x : Option (List (Nat × Nat))) :
    (get_path_id db x).2.messages = db.messages ∧
      (get_path_id db x).2.seenBys = db.seenBys := by
  unfold get_path_id
  repeat' split
  all_goals exact ⟨rfl, rfl⟩

/-- An absent or empty seen-by list yields the 0 sentinel and leaves the
database untouched. -/
theorem get_seenby_id_zero (db : DB) (x : Option (List (Nat × Nat)))
    (h : x = none ∨ x = some []) : get_seenby_id db x = (0, db) := by
  rcases h with h | h <;> subst h <;> rfl

/-- An absent or empty path list yields the 0 sentinel and leaves the
database untouched. -/
theorem get_path_id_zero (db : DB) (x : Option (List (Nat × Nat)))
    (h : x = none ∨ x = some []) : get_path_id db x = (0, db) := by
  rcases h with h | h <;> subst h <;> rfl

/-- Claim C1: when a `(msgid_serial, posted)` duplicate row exists, `toss`
returns the `-1` sentinel and leaves the whole database unchanged; when no
duplicate exists, `toss` inserts exactly one message row, and a second call
with the same message returns the sentinel and changes nothing. -/
theorem c1_toss_dedup :
    (∀ (db : DB) (msg : Message),
      (∃ r ∈ db.messages, r.msgidSerial = msg.msgidSerial ∧ r.posted = replaceT msg.posted) →
      toss db msg = (-1, db)) ∧
    (∀ (db : DB) (msg : Message),
      (¬∃ r ∈ db.messages, r.msgidSerial = msg.msgidSerial ∧ r.posted = replaceT msg.posted) →
      (toss db msg).1 ≠ -1 ∧
      (toss db msg).2.messages.length = db.messages.length + 1 ∧
      toss (toss db msg).2 msg = (-1, (toss db msg).2)) := by
  have hpart1 : ∀ (db : DB) (msg : Message),
      ((db.messages.find? (isDupRow msg)).isSome = true) → toss db msg = (-1, db) := by
    intro db msg hf
    unfold toss
    rw [if_pos hf]
  refine ⟨?_, ?_⟩
  · rintro db msg ⟨r, hr, h1, h2⟩
    exact hpart1 db msg (List.find?_isSome.mpr ⟨r, hr, by simp [isDupRow, h1, h2]⟩)
  · intro db msg hno
    have hf : ¬((db.messages.find? (isDupRow msg)).isSome = true) := by
      intro hb
      obtain ⟨x, hx, hpx⟩ := List.find?_isSome.mp hb
      refine hno ⟨x, hx, ?_⟩
      simpa [isDupRow] using hpx
    obtain ⟨row, hmsgs, hser, hpos⟩ :
        ∃ row : MsgRow, (toss db msg).2.messages = db.messages ++ [row] ∧
          row.msgidSerial = msg.msgidSerial ∧ row.posted = replaceT msg.posted := by
      simp only [toss, if_neg hf, get_subj_id_tables, get_user_id_tables, get_to_id_tables,
        get_seenby_id_tables, get_path_id_tables, get_opt_software_id_tables,
        get_tear_line_id_tables, get_origin_id_tables]
      exact ⟨_, rfl, rfl, rfl⟩
    have hone : ∃ n : Nat, (toss db msg).1 = Int.ofNat n := by
      simp only [toss, if_neg hf]
      exact ⟨_, rfl⟩
    refine ⟨?_, ?_, ?_⟩
    · obtain ⟨n, hn⟩ := hone
      intro hcontra
      rw [hn] at hcontra
      have h0 : (0 : Int) ≤ Int.ofNat n := Int.ofNat_nonneg n
      rw [hcontra] at h0
      exact absurd h0 (by decide)
    · rw [hmsgs]
      simp
    · have hf2 : (((toss db msg).2.messages).find? (isDupRow msg)).isSome = true := by
        rw [List.find?_isSome]
        refine ⟨row, ?_, ?_⟩
        · rw [hmsgs]; simp
        · simp [isDupRow, hser, hpos]
      exact hpart1 _ msg hf2

/-- A message row that duplicates `sampleMsg`'s dedup key. -/
def dupRow : MsgRow where
  id := 1
  posted := replaceT sampleMsg.posted
  tzutc := none
  msgidSerial := 0
  replySerial := none
  msgidAddress := none
  replyAddress := none
  fromId := 1
  toId := 1
  flags := 0
  subjectId := none
  body := []
  tearLineId := none
  originId := none
  pidId := none
  tidId := none
  seenById := none
  pathId := none

/-- A database holding exactly the duplicate row. -/
def dupDb : DB := { DB.empty with messages := [dupRow] }

/-- Claim C1 — witness: a database already holding the duplicate row. -/
theorem c1_toss_dedup_witness : toss dupDb sampleMsg = (-1, dupDb) :=
  c1_toss_dedup.1 dupDb sampleMsg ⟨dupRow, by simp [dupDb], rfl, rfl⟩

/-- Claim C10: an absent seen-by (path) list and an empty one are both
mapped to the 0 sentinel without touching the `seen_bys` (`paths`) table,
and the inserted message row stores `NULL` in `seen_by_id` (`path_id`). -/
theorem c10_empty_lists :
    (∀ db : DB,
      get_seenby_id db none = (0, db) ∧ get_seenby_id db (some []) = (0, db) ∧
      get_path_id db none = (0, db) ∧ get_path_id db (some []) = (0, db)) ∧
    (∀ (db : DB) (msg : Message),
      (¬∃ r ∈ db.messages, r.msgidSerial = msg.msgidSerial ∧ r.posted = replaceT msg.posted) →
      (msg.kludges.seenBy = none ∨ msg.kludges.seenBy = some []) →
      (msg.kludges.path = none ∨ msg.kludges.path = some []) →
      (toss db msg).2.seenBys = db.seenBys ∧ (toss db msg).2.paths = db.paths ∧
      ∃ row : MsgRow, (toss db msg).2.messages = db.messages ++ [row] ∧
        row.seenById = none ∧ row.pathId = none) := by
  refine ⟨fun db => ⟨rfl, rfl, rfl, rfl⟩, ?_⟩
  intro db msg hno hsb hp
  have hf : ¬((db.messages.find? (isDupRow msg)).isSome = true) := by
    intro hb
    obtain ⟨x, hx, hpx⟩ := List.find?_isSome.mp hb
    refine hno ⟨x, hx, ?_⟩
    simpa [isDupRow] using hpx
  have hsbz : ∀ d : DB, get_seenby_id d msg.kludges.seenBy = (0, d) := fun d =>
    get_seenby_id_zero d _ hsb
  have hpz : ∀ d : DB, get_path_id d msg.kludges.path = (0, d) := fun d =>
    get_path_id_zero d _ hp
  refine ⟨?_, ?_, ?_⟩
  · simp only [toss, if_neg hf, hsbz, hpz, get_subj_id_tables, get_user_id_tables,
      get_to_id_tables, get_opt_software_id_tables, get_tear_line_id_tables,
      get_origin_id_tables]
  · simp only [toss, if_neg hf, hsbz, hpz, get_subj_id_tables, get_user_id_tables,
      get_to_id_tables, get_opt_software_id_tables, get_tear_line_id_tables,
      get_origin_id_tables]
  · simp only [toss, if_neg hf, hsbz, hpz, nullIfZero, if_pos rfl,
      get_subj_id_tables, get_user_id_tables, get_to_id_tables,
      get_opt_software_id_tables, get_tear_line_id_tables, get_origin_id_tables]
    exact ⟨_, rfl, rfl, rfl⟩

/-- Claim C10 — witness at a concrete database and message. -/
theorem c10_empty_lists_witness :
    (toss DB.empty sampleMsg).2.seenBys = DB.empty.seenBys ∧
      (toss DB.empty sampleMsg).2.paths = DB.empty.paths ∧
      ∃ row : MsgRow, (toss DB.empty sampleMsg).2.messages = DB.empty.messages ++ [row] ∧
        row.seenById = none ∧ row.pathId = none :=
  (c10_empty_lists.2 DB.empty sampleMsg (by decide) (Or.inl rfl) (Or.inl rfl))

/-! Supporting lemmas for the seen-by / path dedup claim. -/

/-- `find?` returns the unique element satisfying the predicate. -/
theorem find?_of_unique {α : Type} (l : List α) (p : α → Bool) (x : α) (hx : x ∈ l)
    (hpx : p x = true) (huniq : ∀ y ∈ l, p y = true → y = x) : l.find? p = some x := by
  induction l with
  | nil => exact absurd hx (List.not_mem_nil x)
  | cons a l ih =>
    rw [List.find?_cons]
    rcases List.mem_cons.mp hx with h1 | h1
    · subst h1
      rw [hpx]
    · by_cases hpa : p a = true
      · rw [hpa]
        rw [huniq a (by simp) hpa]
      · rw [Bool.eq_false_iff.mpr hpa]
        exact ih h1 fun y hy => huniq y (by simp [hy])

/-- `maxId` distributes over append as a maximum. -/
theorem maxId_append (xs ys : List Nat) : maxId (xs ++ ys) = max (maxId xs) (maxId ys) := by
  induction xs with
  | nil => simp [maxId]
  | cons x xs ih =>
    simp only [List.cons_append, maxId, List.foldr_cons] at ih ⊢
    omega

/-- Every id in the list is bounded by `maxId`. -/
theorem mem_le_maxId {a : Nat} {l : List Nat} (h : a ∈ l) : a ≤ maxId l := by
  induction l with
  | nil => exact absurd h (List.not_mem_nil a)
  | cons x xs ih =>
    simp only [maxId, List.foldr_cons] at ih ⊢
    rcases List.mem_cons.mp h with h1 | h1
    · omega
    · have := ih h1
      omega

/-- `maxId` of a nonempty constant list is the constant. -/
theorem maxId_const {v : Nat} {l : List Nat} (hne : l ≠ []) (h : ∀ x ∈ l, x = v) :
    maxId l = v := by
  induction l with
  | nil => exact absurd rfl hne
  | cons x xs ih =>
    have hx : x = v := h x (by simp)
    by_cases hxs : xs = []
    · subst hxs
      simp [maxId, hx]
    · have hrec := ih hxs fun y hy => h y (by simp [hy])
      simp only [maxId, List.foldr_cons] at hrec ⊢
      omega

/-- The ordered-insert sort of pairs is sorted. -/
theorem sortPairs_sorted (l : List (Nat × Nat)) : List.Sorted pairLe (sortPairs l) :=
  List.sorted_insertionSort pairLe l

/-- The ordered-insert sort of pairs is a permutation of the input. -/
theorem sortPairs_perm (l : List (Nat × Nat)) : (sortPairs l).Perm l :=
  List.perm_insertionSort pairLe l

/-- Sorting is idempotent. -/
theorem sortPairs_idem (l : List (Nat × Nat)) : sortPairs (sortPairs l) = sortPairs l :=
  (sortPairs_sorted l).insertionSort_eq

/-- Permutations sort to the same list. -/
theorem sortPairs_perm_eq {A B : List (Nat × Nat)} (h : A.Perm B) : sortPairs A = sortPairs B :=
  List.eq_of_perm_of_sorted ((sortPairs_perm A).trans (h.trans (sortPairs_perm B).symm))
    (sortPairs_sorted A) (sortPairs_sorted B)

/-- Membership in the grouped seen-by id list is membership among row ids. -/
theorem mem_seenByIds (t : List (Nat × Nat × Nat)) (i : Nat) :
    i ∈ seenByIds t ↔ ∃ r ∈ t, r.1 = i := by
  simp [seenByIds, List.mem_insertionSort, List.mem_dedup, List.mem_map]

/-- Filtering an append where only the appended rows carry the id. -/
theorem filter_append_rows_self (t rows : List (Nat × Nat × Nat)) (v : Nat)
    (hold : ∀ r ∈ t, r.1 ≠ v) (hrows : ∀ r ∈ rows, r.1 = v) :
    (t ++ rows).filter (·.1 == v) = rows := by
  rw [List.filter_append]
  rw [List.filter_eq_nil_iff.mpr (by intro r hr; simpa using hold r hr)]
  rw [List.filter_eq_self.mpr (by intro r hr; simpa using hrows r hr)]
  simp

/-- Filtering an append for a different id ignores the appended rows. -/
theorem filter_append_rows_other (t rows : List (Nat × Nat × Nat)) (v j : Nat)
    (hrows : ∀ r ∈ rows, r.1 = v) (hne : j ≠ v) :
    (t ++ rows).filter (·.1 == j) = t.filter (·.1 == j) := by
  rw [List.filter_append]
  have hnil : rows.filter (·.1 == j) = [] := by
    rw [List.filter_eq_nil_iff]
    intro r hr
    simp only [beq_iff_eq]
    rw [hrows r hr]
    exact fun hc => hne hc.symm
  rw [hnil, List.append_nil]

/-- The group of a freshly inserted seen-by id is the sorted input. -/
theorem seenByGroup_insert (t : List (Nat × Nat × Nat)) (v : Nat) (l : List (Nat × Nat))
    (hold : ∀ r ∈ t, r.1 ≠ v) :
    seenByGroup (t ++ (sortPairs l).map fun p => (v, p.1, p.2)) v = sortPairs l := by
  unfold seenByGroup
  rw [filter_append_rows_self t _ v hold
    (by rintro r hr; simp only [List.mem_map] at hr; obtain ⟨p, hp, rfl⟩ := hr; rfl)]
  rw [List.map_map]
  rw [show ((fun (r : Nat × Nat × Nat) => (r.2.1, r.2.2)) ∘
      fun (p : Nat × Nat) => ((v, p.1, p.2) : Nat × Nat × Nat)) = id from funext fun p => rfl]
  rw [List.map_id]
  exact sortPairs_idem l

/-- Groups of other seen-by ids are untouched by the insert. -/
theorem seenByGroup_other (t : List (Nat × Nat × Nat)) (v j : Nat) (l : List (Nat × Nat))
    (hne : j ≠ v) :
    seenByGroup (t ++ (sortPairs l).map fun p => (v, p.1, p.2)) j = seenByGroup t j := by
  unfold seenByGroup
  rw [filter_append_rows_other t _ v j
    (by rintro r hr; simp only [List.mem_map] at hr; obtain ⟨p, hp, rfl⟩ := hr; rfl) hne]

/-- Claim C2, seen-by half: inserting a seen-by list and then any
permutation of it returns the same id and leaves the state unchanged. -/
theorem get_seenby_reuse (db : DB) (A B : List (Nat × Nat)) (hA : A ≠ [])
    (hperm : A.Perm B) :
    get_seenby_id (get_seenby_id db (some A)).2 (some B) = get_seenby_id db (some A) := by
  have hB : B ≠ [] := by
    intro hb
    subst hb
    exact hA hperm.eq_nil
  have hsort : sortPairs B = sortPairs A := sortPairs_perm_eq hperm.symm
  rcases A with _ | ⟨a, as⟩
  · exact absurd rfl hA
  rcases B with _ | ⟨b, bs⟩
  · exact absurd rfl hB
  rcases hfind : (seenByIds db.seenBys).find?
      (fun i => seenByGroup db.seenBys i == sortPairs (a :: as)) with _ | i
  · -- not found: the first call inserts under a fresh id
    have hfirst : get_seenby_id db (some (a :: as)) =
        (maxId ((db.seenBys ++
            (sortPairs (a :: as)).map fun p => (maxId (db.seenBys.map (·.1)) + 1, p.1, p.2)).map
          (·.1)),
          { db with seenBys := db.seenBys ++
            (sortPairs (a :: as)).map fun p => (maxId (db.seenBys.map (·.1)) + 1, p.1, p.2) }) := by
      simp only [get_seenby_id, hfind]
    set v := maxId (db.seenBys.map (·.1)) + 1 with hv
    set rows := (sortPairs (a :: as)).map fun p => (v, p.1, p.2) with hrows
    have hrowsid : ∀ r ∈ rows, r.1 = v := by
      rintro r hr
      simp only [hrows, List.mem_map] at hr
      obtain ⟨p, hp, rfl⟩ := hr
      rfl
    have hold : ∀ r ∈ db.seenBys, r.1 ≠ v := by
      intro r hr hc
      have : r.1 ≤ maxId (db.seenBys.map (·.1)) :=
        mem_le_maxId (List.mem_map.mpr ⟨r, hr, rfl⟩)
      omega
    have hrowsne : rows ≠ [] := by
      simp only [hrows]
      intro hc
      have := congrArg List.length hc
      simp only [List.length_map, List.length_nil] at this
      have h2 := (sortPairs_perm (a :: as)).length_eq
      simp at h2
      omega
    have hrmax : maxId (rows.map (·.1)) = v :=
      maxId_const (by simpa using hrowsne)
        (by rintro x hx; simp only [List.mem_map] at hx; obtain ⟨r, hr, rfl⟩ := hx
            exact hrowsid r hr)
    have hmax : maxId ((db.seenBys ++ rows).map (·.1)) = v := by
      rw [List.map_append, maxId_append, hrmax]
      omega
    rw [hfirst, hmax]
    -- second call: the fresh group matches and is the unique match
    have hgroup : seenByGroup (db.seenBys ++ rows) v = sortPairs (a :: as) :=
      seenByGroup_insert db.seenBys v (a :: as) hold
    have hfind2 : (seenByIds (db.seenBys ++ rows)).find?
        (fun i => seenByGroup (db.seenBys ++ rows) i == sortPairs (b :: bs)) = some v := by
      apply find?_of_unique
      · rw [mem_seenByIds]
        obtain ⟨r, hr⟩ : ∃ r, r ∈ rows := by
          rcases rows with _ | ⟨r, rs⟩
          · exact absurd rfl hrowsne
          · exact ⟨r, by simp⟩
        exact ⟨r, by simp [hr], hrowsid r hr⟩
      · rw [hsort, hgroup]
        simp
      · intro j hj hpj
        by_contra hne
        rw [seenByGroup_other db.seenBys v j (a :: as) hne] at hpj
        have hjold : ∃ r ∈ db.seenBys, r.1 = j := by
          rcases (mem_seenByIds _ j).mp hj with ⟨r, hr, rfl⟩
          rcases List.mem_append.mp hr with h1 | h1
          · exact ⟨r, h1, rfl⟩
          · exact absurd (hrowsid r h1) hne
        have hnone := List.find?_eq_none.mp hfind j ((mem_seenByIds _ j).mpr hjold)
        rw [hsort] at hpj
        exact hnone hpj
    simp only [get_seenby_id, hfind2]
  · -- found: both calls return the same existing id and leave the state alone
    have hfirst : get_seenby_id db (some (a :: as)) = (i, db) := by
      simp only [get_seenby_id, hfind]
    rw [hfirst]
    have hfind2 : (seenByIds db.seenBys).find?
        (fun j => seenByGroup db.seenBys j == sortPairs (b :: bs)) = some i := by
      rw [hsort]
      exact hfind
    simp only [get_seenby_id, hfind2]

/-- Membership in the grouped path id list is membership among row ids. -/
theorem mem_pathIds (t : List (Nat × Nat × Nat × Nat)) (i : Nat) :
    i ∈ pathIds t ↔ ∃ r ∈ t, r.1 = i := by
  simp [pathIds, List.mem_insertionSort, List.mem_dedup, List.mem_map]

/-- Filtering an appended path insert where only the new rows carry the id. -/
theorem pfilter_append_self (t rows : List (Nat × Nat × Nat × Nat)) (v : Nat)
    (hold : ∀ r ∈ t, r.1 ≠ v) (hrows : ∀ r ∈ rows, r.1 = v) :
    (t ++ rows).filter (·.1 == v) = rows := by
  rw [List.filter_append]
  rw [List.filter_eq_nil_iff.mpr (by intro r hr; simpa using hold r hr)]
  rw [List.filter_eq_self.mpr (by intro r hr; simpa using hrows r hr)]
  simp

/-- Filtering an appended path insert for a different id. -/
theorem pfilter_append_other (t rows : List (Nat × Nat × Nat × Nat)) (v j : Nat)
    (hrows : ∀ r ∈ rows, r.1 = v) (hne : j ≠ v) :
    (t ++ rows).filter (·.1 == j) = t.filter (·.1 == j) := by
  rw [List.filter_append]
  have hnil : rows.filter (·.1 == j) = [] := by
    rw [List.filter_eq_nil_iff]
    intro r hr
    simp only [beq_iff_eq]
    rw [hrows r hr]
    exact fun hc => hne hc.symm
  rw [hnil, List.append_nil]

/-- The freshly inserted path rows are already ordered by position. -/
theorem sorted_pathRows (v : Nat) (l : List (Nat × Nat)) :
    List.Sorted posLe (l.enum.map fun kp => ((v, kp.1 + 1, kp.2.1, kp.2.2) :
      Nat × Nat × Nat × Nat)) := by
  rw [List.Sorted, List.pairwise_iff_getElem]
  intro i j hi hj hij
  simp only [List.getElem_map, List.getElem_enum, posLe] at *
  omega

/-- The group of a freshly inserted path id is the input sequence. -/
theorem pathGroup_insert (t : List (Nat × Nat × Nat × Nat)) (v : Nat) (l : List (Nat × Nat))
    (hold : ∀ r ∈ t, r.1 ≠ v) :
    pathGroup (t ++ l.enum.map fun kp => (v, kp.1 + 1, kp.2.1, kp.2.2)) v = l := by
  unfold pathGroup
  rw [pfilter_append_self t _ v hold
    (by rintro r hr; simp only [List.mem_map] at hr; obtain ⟨p, hp, rfl⟩ := hr; rfl)]
  rw [(sorted_pathRows v l).insertionSort_eq]
  rw [List.map_map]
  rw [show ((fun (r : Nat × Nat × Nat × Nat) => (r.2.2.1, r.2.2.2)) ∘
      fun (kp : Nat × (Nat × Nat)) => ((v, kp.1 + 1, kp.2.1, kp.2.2) :
        Nat × Nat × Nat × Nat)) = Prod.snd from funext fun kp => rfl]
  exact List.enum_map_snd l

/-- Groups of other path ids are untouched by the insert. -/
theorem pathGroup_other (t : List (Nat × Nat × Nat × Nat)) (v j : Nat) (l : List (Nat × Nat))
    (hne : j ≠ v) :
    pathGroup (t ++ l.enum.map fun kp => (v, kp.1 + 1, kp.2.1, kp.2.2)) j = pathGroup t j := by
  unfold pathGroup
  rw [pfilter_append_other t _ v j
    (by rintro r hr; simp only [List.mem_map] at hr; obtain ⟨p, hp, rfl⟩ := hr; rfl) hne]

/-- Claim C2, path half: inserting two non-identical path sequences yields
two different path ids, even when they are permutations of each other. -/
theorem get_path_distinct (db : DB) (A B : List (Nat × Nat)) (hA : A ≠ []) (hB : B ≠ [])
    (hne : A ≠ B) :
    (get_path_id (get_path_id db (some A)).2 (some B)).1 ≠ (get_path_id db (some A)).1 := by
  rcases A with _ | ⟨a, as⟩
  · exact absurd rfl hA
  rcases B with _ | ⟨b, bs⟩
  · exact absurd rfl hB
  rcases hfind1 : (pathIds db.paths).find?
      (fun i => pathGroup db.paths i == (a :: as)) with _ | i1
  · -- first call inserts the sequence under a fresh id v
    set v := maxId (db.paths.map (·.1)) + 1 with hv
    set rows := (a :: as).enum.map
      (fun kp => ((v, kp.1 + 1, kp.2.1, kp.2.2) : Nat × Nat × Nat × Nat)) with hrows
    have hfirst : get_path_id db (some (a :: as)) =
        (maxId ((db.paths ++ rows).map (·.1)), { db with paths := db.paths ++ rows }) := by
      simp only [get_path_id, hfind1]
    have hrowsid : ∀ r ∈ rows, r.1 = v := by
      rintro r hr
      simp only [hrows, List.mem_map] at hr
      obtain ⟨p, hp, rfl⟩ := hr
      rfl
    have hold : ∀ r ∈ db.paths, r.1 ≠ v := by
      intro r hr hc
      have : r.1 ≤ maxId (db.paths.map (·.1)) :=
        mem_le_maxId (List.mem_map.mpr ⟨r, hr, rfl⟩)
      omega
    have hrowsne : rows ≠ [] := by
      simp [hrows]
    have hrmax : maxId (rows.map (·.1)) = v :=
      maxId_const (by simpa using hrowsne)
        (by rintro x hx; simp only [List.mem_map] at hx; obtain ⟨r, hr, rfl⟩ := hx
            exact hrowsid r hr)
    have hmax : maxId ((db.paths ++ rows).map (·.1)) = v := by
      rw [List.map_append, maxId_append, hrmax]
      omega
    rw [hfirst, hmax]
    have hgroup : pathGroup (db.paths ++ rows) v = a :: as :=
      pathGroup_insert db.paths v (a :: as) hold
    rcases hfind2 : (pathIds (db.paths ++ rows)).find?
        (fun i => pathGroup (db.paths ++ rows) i == (b :: bs)) with _ | i2
    · -- second call also inserts: its id tops the enlarged table
      simp only [get_path_id, hfind2]
      have hvin : v ≤ maxId ((db.paths ++ rows).map (·.1)) := by
        rw [List.map_append, maxId_append, hrmax]
        omega
      set rows2 := (b :: bs).enum.map
        (fun kp => ((maxId ((db.paths ++ rows).map (·.1)) + 1, kp.1 + 1, kp.2.1, kp.2.2) :
          Nat × Nat × Nat × Nat)) with hrows2
      have hrows2ne : rows2 ≠ [] := by
        simp [hrows2]
      have hr2max : maxId (rows2.map (·.1)) = maxId ((db.paths ++ rows).map (·.1)) + 1 :=
        maxId_const (by simpa using hrows2ne)
          (by rintro x hx; simp only [hrows2, List.mem_map] at hx
              obtain ⟨r, ⟨p, hp, rfl⟩, rfl⟩ := hx
              rfl)
      rw [List.map_append, maxId_append, hr2max]
      intro hc
      omega
    · -- second call found a group equal to B; it cannot be the fresh id v
      simp only [get_path_id, hfind2]
      have hpj := List.find?_some hfind2
      simp only [beq_iff_eq] at hpj
      intro hc
      subst hc
      rw [hgroup] at hpj
      exact hne hpj
  · -- first call found an existing group equal to A
    have hfirst : get_path_id db (some (a :: as)) = (i1, db) := by
      simp only [get_path_id, hfind1]
    have hg1 := List.find?_some hfind1
    simp only [beq_iff_eq] at hg1
    rw [hfirst]
    rcases hfind2 : (pathIds db.paths).find?
        (fun i => pathGroup db.paths i == (b :: bs)) with _ | i2
    · -- second call inserts: fresh id exceeds every existing one
      simp only [get_path_id, hfind2]
      have hi1 : i1 ≤ maxId (db.paths.map (·.1)) := by
        have hmem := List.mem_of_find?_eq_some hfind1
        rcases (mem_pathIds _ i1).mp hmem with ⟨r, hr, rfl⟩
        exact mem_le_maxId (List.mem_map.mpr ⟨r, hr, rfl⟩)
      set rows2 := (b :: bs).enum.map
        (fun kp => ((maxId (db.paths.map (·.1)) + 1, kp.1 + 1, kp.2.1, kp.2.2) :
          Nat × Nat × Nat × Nat)) with hrows2
      have hrows2ne : rows2 ≠ [] := by
        simp [hrows2]
      have hr2max : maxId (rows2.map (·.1)) = maxId (db.paths.map (·.1)) + 1 :=
        maxId_const (by simpa using hrows2ne)
          (by rintro x hx; simp only [hrows2, List.mem_map] at hx
              obtain ⟨r, ⟨p, hp, rfl⟩, rfl⟩ := hx
              rfl)
      rw [List.map_append, maxId_append, hr2max]
      intro hc
      omega
    · -- both found: distinct sequences live under distinct ids
      simp only [get_path_id, hfind2]
      have hg2 := List.find?_some hfind2
      simp only [beq_iff_eq] at hg2
      intro hc
      subst hc
      rw [hg1] at hg2
      exact hne hg2

/-- Claim C2: two permuted non-empty seen-by lists get the same `seen_by`
id (the second insertion reuses the first's), while two non-identical
non-empty path lists — permuted or not — always get different path ids. -/
theorem c2_seenby_path_dedup :
    (∀ (db : DB) (A B : List (Nat × Nat)), A ≠ [] → A.Perm B →
      get_seenby_id (get_seenby_id db (some A)).2 (some B) = get_seenby_id db (some A)) ∧
    (∀ (db : DB) (A B : List (Nat × Nat)), A ≠ [] → B ≠ [] → A ≠ B →
      (get_path_id (get_path_id db (some A)).2 (some B)).1 ≠ (get_path_id db (some A)).1) :=
  ⟨get_seenby_reuse, get_path_distinct⟩

/-- Claim C2 — witness at concrete lists on the empty database. -/
theorem c2_seenby_path_dedup_witness :
    get_seenby_id (get_seenby_id DB.empty (some [(1, 1), (1, 2)])).2 (some [(1, 2), (1, 1)]) =
        get_seenby_id DB.empty (some [(1, 1), (1, 2)]) ∧
      (get_path_id (get_path_id DB.empty (some [(1, 1), (1, 2)])).2
            (some [(1, 2), (1, 1)])).1 ≠
        (get_path_id DB.empty (some [(1, 1), (1, 2)])).1 :=
  ⟨c2_seenby_path_dedup.1 DB.empty _ _ (by decide) (by decide),
    c2_seenby_path_dedup.2 DB.empty _ _ (by decide) (by decide) (by decide)⟩

/-- Folding decimal digits never decreases the accumulator. -/
theorem digitsFold_ge (s : Str) :
    ∀ acc : Nat, acc ≤ s.foldl (fun a c => a * 10 + (c.toNat - 48)) acc := by
  induction s with
  | nil => intro acc; simp
  | cons c cs ih =>
    intro acc
    rw [List.foldl_cons]
    exact le_trans (by omega) (ih (acc * 10 + (c.toNat - 48)))

/-- Digit values are what `decDigit?` returns. -/
theorem decDigit_val (c : Char) (d : Nat) (hd : decDigit? c = some d) :
    d = c.toNat - 48 := by
  simp only [decDigit?] at hd
  split at hd
  · injection hd with h
    exact h.symm
  · exact absurd hd (by simp)

/-- Rust's `u16` digit loop succeeds on an in-range all-digit tail. -/
theorem parseU16Go_ok (s : Str) :
    ∀ acc : Nat, (∀ c ∈ s, (decDigit? c).isSome) →
      s.foldl (fun a c => a * 10 + (c.toNat - 48)) acc ≤ 65535 →
      parseU16Go acc s = .ok (s.foldl (fun a c => a * 10 + (c.toNat - 48)) acc) := by
  induction s with
  | nil => intro acc _ _; rfl
  | cons c cs ih =>
    intro acc hall hb
    rw [List.foldl_cons] at hb ⊢
    have hc := hall c (List.mem_cons_self c cs)
    rcases hd : decDigit? c with _ | d
    · rw [hd] at hc
      simp at hc
    have hdval : d = c.toNat - 48 := decDigit_val c d hd
    unfold parseU16Go
    rw [hd]
    show (if 65535 < acc * 10 + d then (.error .overflow : Except ParseAddressError Nat)
        else parseU16Go (acc * 10 + d) cs) = _
    have hle : acc * 10 + d ≤ 65535 := by
      rw [hdval]
      exact le_trans (digitsFold_ge cs _) hb
    rw [if_neg (by omega), hdval]
    exact ih _ (fun x hx => hall x (List.mem_cons_of_mem c hx)) hb

/-- Rust's `u16` digit loop overflows on an out-of-range all-digit tail. -/
theorem parseU16Go_overflow (s : Str) :
    ∀ acc : Nat, (∀ c ∈ s, (decDigit? c).isSome) → acc ≤ 65535 →
      65535 < s.foldl (fun a c => a * 10 + (c.toNat - 48)) acc →
      parseU16Go acc s = .error .overflow := by
  induction s with
  | nil =>
    intro acc _ hacc hb
    rw [List.foldl_nil] at hb
    omega
  | cons c cs ih =>
    intro acc hall hacc hb
    rw [List.foldl_cons] at hb
    have hc := hall c (List.mem_cons_self c cs)
    rcases hd : decDigit? c with _ | d
    · rw [hd] at hc
      simp at hc
    have hdval : d = c.toNat - 48 := decDigit_val c d hd
    unfold parseU16Go
    rw [hd]
    show (if 65535 < acc * 10 + d then (.error .overflow : Except ParseAddressError Nat)
        else parseU16Go (acc * 10 + d) cs) = _
    by_cases hov : 65535 < acc * 10 + d
    · rw [if_pos hov]
    · rw [if_neg hov, hdval]
      exact ih _ (fun x hx => hall x (List.mem_cons_of_mem c hx)) (by omega) hb

/-- A digit character differs from every non-digit character. -/
theorem digit_ne (c x : Char) (h : (decDigit? c).isSome) (hx : decDigit? x = none) :
    c ≠ x := by
  intro hc
  rw [hc, hx] at h
  simp at h

/-- No non-digit character occurs in an all-digit string. -/
theorem digits_not_mem (s : Str) (hall : ∀ c ∈ s, (decDigit? c).isSome) (x : Char)
    (hx : decDigit? x = none) : x ∉ s := by
  intro hmem
  have h := hall x hmem
  rw [hx] at h
  simp at h

/-- Model of `str::parse::<u16>` reduces to the digit loop when the head is
not the sign character. -/
theorem parseU16_cons (c : Char) (cs : Str) (hc : c ≠ '+') :
    parseU16 (c :: cs) = parseU16Go 0 (c :: cs) := by
  unfold parseU16
  split
  · rename_i heq
    cases heq
  · rename_i rest heq
    injection heq with h1 _
    exact absurd h1 hc
  · rfl

/-- Parsing a non-empty in-range digit literal yields its value. -/
theorem parseU16_digits_ok (s : Str) (h : DigitLit s) : parseU16 s = .ok (digitsVal s) := by
  obtain ⟨hne, hall, hb⟩ := h
  rcases s with _ | ⟨c, cs⟩
  · exact absurd rfl hne
  rw [parseU16_cons c cs (digit_ne c '+' (hall c (List.mem_cons_self c cs)) (by decide))]
  exact parseU16Go_ok (c :: cs) 0 hall hb

/-- Parsing a non-empty out-of-range digit literal yields `Overflow`. -/
theorem parseU16_digits_overflow (s : Str) (hne : s ≠ [])
    (hall : ∀ c ∈ s, (decDigit? c).isSome) (hb : 65535 < digitsVal s) :
    parseU16 s = .error .overflow := by
  rcases s with _ | ⟨c, cs⟩
  · exact absurd rfl hne
  rw [parseU16_cons c cs (digit_ne c '+' (hall c (List.mem_cons_self c cs)) (by decide))]
  exact parseU16Go_overflow (c :: cs) 0 hall (by omega) hb

/-- Step equation of the zone state on one character. -/
theorem fromStrAux_zone_cons (acc : Str) (c : Char) (cs : Str) (a : Address) :
    fromStrAux .zone acc (c :: cs) a =
      if c = ':' then
        Except.bind (parseU16 acc.reverse)
          (fun z => fromStrAux .net [] cs { a with zone := z })
      else fromStrAux .zone (c :: acc) cs a := rfl

/-- Step equation of the net state on one character. -/
theorem fromStrAux_net_cons (acc : Str) (c : Char) (cs : Str) (a : Address) :
    fromStrAux .net acc (c :: cs) a =
      if c = '/' then
        Except.bind (parseU16 acc.reverse)
          (fun n => fromStrAux .node [] cs { a with net := n })
      else fromStrAux .net (c :: acc) cs a := rfl

/-- Step equation of the node state on one character. -/
theorem fromStrAux_node_cons (acc : Str) (c : Char) (cs : Str) (a : Address) :
    fromStrAux .node acc (c :: cs) a =
      if c = '.' then
        Except.bind (parseU16 acc.reverse)
          (fun n => fromStrAux .point [] cs { a with node := n })
      else if c = '@' then
        Except.bind (parseU16 acc.reverse)
          (fun n => fromStrAux .domain [] cs { a with node := n })
      else fromStrAux .node (c :: acc) cs a := rfl

/-- Step equation of the point state on one character. -/
theorem fromStrAux_point_cons (acc : Str) (c : Char) (cs : Str) (a : Address) :
    fromStrAux .point acc (c :: cs) a =
      if c = '@' then
        Except.bind (parseU16 acc.reverse)
          (fun p => fromStrAux .domain [] cs { a with point := p })
      else fromStrAux .point (c :: acc) cs a := rfl

/-- The zone state consumes its field up to the first colon. -/
theorem fromStrAux_zone_skip (zs : Str) (hz : ':' ∉ zs) :
    ∀ (acc cs : Str) (a : Address),
      fromStrAux .zone acc (zs ++ ':' :: cs) a =
        Except.bind (parseU16 (acc.reverse ++ zs))
          (fun z => fromStrAux .net [] cs { a with zone := z }) := by
  induction zs with
  | nil =>
    intro acc cs a
    rw [List.append_nil]
    rfl
  | cons c zs ih =>
    intro acc cs a
    have hc : c ≠ ':' := fun h => hz (h ▸ List.mem_cons_self c zs)
    have hz' : ':' ∉ zs := fun h => hz (List.mem_cons_of_mem c h)
    rw [List.cons_append, fromStrAux_zone_cons, if_neg hc, ih hz' (c :: acc) cs a,
      List.reverse_cons, List.append_assoc, List.singleton_append]

/-- Strings without a colon are rejected from the zone state. -/
theorem fromStrAux_zone_nocolon (s : Str) (h : ':' ∉ s) :
    ∀ (acc : Str) (a : Address), fromStrAux .zone acc s a = .error .invalidFormat := by
  induction s with
  | nil => intro acc a; rfl
  | cons c cs ih =>
    intro acc a
    have hc : c ≠ ':' := fun hcc => h (hcc ▸ List.mem_cons_self c cs)
    rw [fromStrAux_zone_cons, if_neg hc]
    exact ih (fun hm => h (List.mem_cons_of_mem c hm)) (c :: acc) a

/-- The net state consumes its field up to the first slash. -/
theorem fromStrAux_net_skip (ns : Str) (hn : '/' ∉ ns) :
    ∀ (acc cs : Str) (a : Address),
      fromStrAux .net acc (ns ++ '/' :: cs) a =
        Except.bind (parseU16 (acc.reverse ++ ns))
          (fun n => fromStrAux .node [] cs { a with net := n }) := by
  induction ns with
  | nil =>
    intro acc cs a
    rw [List.append_nil]
    rfl
  | cons c ns ih =>
    intro acc cs a
    have hc : c ≠ '/' := fun h => hn (h ▸ List.mem_cons_self c ns)
    rw [List.cons_append, fromStrAux_net_cons, if_neg hc,
      ih (fun hm => hn (List.mem_cons_of_mem c hm)) (c :: acc) cs a,
      List.reverse_cons, List.append_assoc, List.singleton_append]

/-- Running out of input in the net state is rejected. -/
theorem fromStrAux_net_end (ns : Str) (hn : '/' ∉ ns) :
    ∀ (acc : Str) (a : Address), fromStrAux .net acc ns a = .error .invalidFormat := by
  induction ns with
  | nil => intro acc a; rfl
  | cons c ns ih =>
    intro acc a
    have hc : c ≠ '/' := fun h => hn (h ▸ List.mem_cons_self c ns)
    rw [fromStrAux_net_cons, if_neg hc]
    exact ih (fun hm => hn (List.mem_cons_of_mem c hm)) (c :: acc) a

/-- The node state consumes the rest of the input when no separator follows. -/
theorem fromStrAux_node_end (ds : Str) (hd1 : '.' ∉ ds) (hd2 : '@' ∉ ds) :
    ∀ (acc : Str) (a : Address),
      fromStrAux .node acc ds a =
        Except.bind (parseU16 (acc.reverse ++ ds))
          (fun n => .ok { a with node := n }) := by
  induction ds with
  | nil =>
    intro acc a
    rw [List.append_nil]
    rfl
  | cons c ds ih =>
    intro acc a
    have hc1 : c ≠ '.' := fun h => hd1 (h ▸ List.mem_cons_self c ds)
    have hc2 : c ≠ '@' := fun h => hd2 (h ▸ List.mem_cons_self c ds)
    rw [fromStrAux_node_cons, if_neg hc1, if_neg hc2,
      ih (fun hm => hd1 (List.mem_cons_of_mem c hm))
        (fun hm => hd2 (List.mem_cons_of_mem c hm)) (c :: acc) a,
      List.reverse_cons, List.append_assoc, List.singleton_append]

/-- The node state hands over to the point state at the first dot. -/
theorem fromStrAux_node_point (ds : Str) (hd1 : '.' ∉ ds) (hd2 : '@' ∉ ds) :
    ∀ (acc cs : Str) (a : Address),
      fromStrAux .node acc (ds ++ '.' :: cs) a =
        Except.bind (parseU16 (acc.reverse ++ ds))
          (fun n => fromStrAux .point [] cs { a with node := n }) := by
  induction ds with
  | nil =>
    intro acc cs a
    rw [List.append_nil]
    rfl
  | cons c ds ih =>
    intro acc cs a
    have hc1 : c ≠ '.' := fun h => hd1 (h ▸ List.mem_cons_self c ds)
    have hc2 : c ≠ '@' := fun h => hd2 (h ▸ List.mem_cons_self c ds)
    rw [List.cons_append, fromStrAux_node_cons, if_neg hc1, if_neg hc2,
      ih (fun hm => hd1 (List.mem_cons_of_mem c hm))
        (fun hm => hd2 (List.mem_cons_of_mem c hm)) (c :: acc) cs a,
      List.reverse_cons, List.append_assoc, List.singleton_append]

/-- The node state hands over to the domain state at the first at-sign. -/
theorem fromStrAux_node_domain (ds : Str) (hd1 : '.' ∉ ds) (hd2 : '@' ∉ ds) :
    ∀ (acc cs : Str) (a : Address),
      fromStrAux .node acc (ds ++ '@' :: cs) a =
        Except.bind (parseU16 (acc.reverse ++ ds))
          (fun n => fromStrAux .domain [] cs { a with node := n }) := by
  induction ds with
  | nil =>
    intro acc cs a
    rw [List.append_nil]
    rfl
  | cons c ds ih =>
    intro acc cs a
    have hc1 : c ≠ '.' := fun h => hd1 (h ▸ List.mem_cons_self c ds)
    have hc2 : c ≠ '@' := fun h => hd2 (h ▸ List.mem_cons_self c ds)
    rw [List.cons_append, fromStrAux_node_cons, if_neg hc1, if_neg hc2,
      ih (fun hm => hd1 (List.mem_cons_of_mem c hm))
        (fun hm => hd2 (List.mem_cons_of_mem c hm)) (c :: acc) cs a,
      List.reverse_cons, List.append_assoc, List.singleton_append]

/-- The point state consumes the rest of the input when no at-sign follows. -/
theorem fromStrAux_point_end (ps : Str) (hp : '@' ∉ ps) :
    ∀ (acc : Str) (a : Address),
      fromStrAux .point acc ps a =
        Except.bind (parseU16 (acc.reverse ++ ps))
          (fun p => .ok { a with point := p }) := by
  induction ps with
  | nil =>
    intro acc a
    rw [List.append_nil]
    rfl
  | cons c ps ih =>
    intro acc a
    have hc : c ≠ '@' := fun h => hp (h ▸ List.mem_cons_self c ps)
    rw [fromStrAux_point_cons, if_neg hc,
      ih (fun hm => hp (List.mem_cons_of_mem c hm)) (c :: acc) a,
      List.reverse_cons, List.append_assoc, List.singleton_append]

/-- The point state hands over to the domain state at the first at-sign. -/
theorem fromStrAux_point_domain (ps : Str) (hp : '@' ∉ ps) :
    ∀ (acc cs : Str) (a : Address),
      fromStrAux .point acc (ps ++ '@' :: cs) a =
        Except.bind (parseU16 (acc.reverse ++ ps))
          (fun p => fromStrAux .domain [] cs { a with point := p }) := by
  induction ps with
  | nil =>
    intro acc cs a
    rw [List.append_nil]
    rfl
  | cons c ps ih =>
    intro acc cs a
    have hc : c ≠ '@' := fun h => hp (h ▸ List.mem_cons_self c ps)
    rw [List.cons_append, fromStrAux_point_cons, if_neg hc,
      ih (fun hm => hp (List.mem_cons_of_mem c hm)) (c :: acc) cs a,
      List.reverse_cons, List.append_assoc, List.singleton_append]

/-- The domain state swallows everything to the end of the input. -/
theorem fromStrAux_domain_all (cs : Str) :
    ∀ (acc : Str) (a : Address),
      fromStrAux .domain acc cs a = .ok { a with domain := some (acc.reverse ++ cs) } := by
  induction cs with
  | nil =>
    intro acc a
    rw [List.append_nil]
    rfl
  | cons c cs ih =>
    intro acc a
    show fromStrAux .domain (c :: acc) cs a = _
    rw [ih (c :: acc) a, List.reverse_cons, List.append_assoc]
    rfl

/-- Claim C3: `Address::from_str` reconstructs every valid 3D/4D/5D address —
zone, net, node from `z:n/d`, the point after a dot, the domain as the whole
remainder after the first `@` (a trailing `@` gives `Some("")`); a numeric
field beyond `u16::MAX` yields `Overflow`; a string without a colon, a zone
with no following slash, an empty zone field, or a non-digit character in the
zone all yield `InvalidFormat`. -/
theorem c3_address_roundtrip :
    (∀ zs ns ds : Str, DigitLit zs → DigitLit ns → DigitLit ds →
      Address.fromStr (zs ++ ':' :: (ns ++ '/' :: ds)) =
        .ok ⟨digitsVal zs, digitsVal ns, digitsVal ds, 0, none⟩) ∧
    (∀ zs ns ds ps : Str, DigitLit zs → DigitLit ns → DigitLit ds → DigitLit ps →
      Address.fromStr (zs ++ ':' :: (ns ++ '/' :: (ds ++ '.' :: ps))) =
        .ok ⟨digitsVal zs, digitsVal ns, digitsVal ds, digitsVal ps, none⟩) ∧
    (∀ zs ns ds ps dom : Str, DigitLit zs → DigitLit ns → DigitLit ds → DigitLit ps →
      Address.fromStr (zs ++ ':' :: (ns ++ '/' :: (ds ++ '.' :: (ps ++ '@' :: dom)))) =
        .ok ⟨digitsVal zs, digitsVal ns, digitsVal ds, digitsVal ps, some dom⟩) ∧
    (∀ zs ns ds dom : Str, DigitLit zs → DigitLit ns → DigitLit ds →
      Address.fromStr (zs ++ ':' :: (ns ++ '/' :: (ds ++ '@' :: dom))) =
        .ok ⟨digitsVal zs, digitsVal ns, digitsVal ds, 0, some dom⟩) ∧
    (∀ zs rest : Str, zs ≠ [] → (∀ c ∈ zs, (decDigit? c).isSome) →
      65535 < digitsVal zs →
      Address.fromStr (zs ++ ':' :: rest) = .error .overflow) ∧
    (∀ zs ns ds : Str, DigitLit zs → DigitLit ns → ds ≠ [] →
      (∀ c ∈ ds, (decDigit? c).isSome) → 65535 < digitsVal ds →
      Address.fromStr (zs ++ ':' :: (ns ++ '/' :: ds)) = .error .overflow) ∧
    (∀ s : Str, ':' ∉ s → Address.fromStr s = .error .invalidFormat) ∧
    (∀ zs rest : Str, DigitLit zs → '/' ∉ rest →
      Address.fromStr (zs ++ ':' :: rest) = .error .invalidFormat) ∧
    (∀ rest : Str, Address.fromStr (':' :: rest) = .error .invalidFormat) ∧
    (∀ (c : Char) (rest : Str), decDigit? c = none → c ≠ '+' → c ≠ ':' →
      Address.fromStr (c :: ':' :: rest) = .error .invalidFormat) := by
  have hnotc : ∀ s : Str, (∀ c ∈ s, (decDigit? c).isSome) → ':' ∉ s :=
    fun s h => digits_not_mem s h ':' (by decide)
  have hnots : ∀ s : Str, (∀ c ∈ s, (decDigit? c).isSome) → '/' ∉ s :=
    fun s h => digits_not_mem s h '/' (by decide)
  have hnotd : ∀ s : Str, (∀ c ∈ s, (decDigit? c).isSome) → '.' ∉ s :=
    fun s h => digits_not_mem s h '.' (by decide)
  have hnota : ∀ s : Str, (∀ c ∈ s, (decDigit? c).isSome) → '@' ∉ s :=
    fun s h => digits_not_mem s h '@' (by decide)
  refine ⟨?_, ?_, ?_, ?_, ?_, ?_, ?_, ?_, ?_, ?_⟩
  · intro zs ns ds hz hn hd
    show fromStrAux .zone [] (zs ++ ':' :: (ns ++ '/' :: ds)) Address.empty = _
    rw [fromStrAux_zone_skip zs (hnotc zs hz.2.1) [] (ns ++ '/' :: ds) Address.empty]
    simp only [List.reverse_nil, List.nil_append]
    rw [parseU16_digits_ok zs hz]
    show fromStrAux .net [] (ns ++ '/' :: ds) _ = _
    rw [fromStrAux_net_skip ns (hnots ns hn.2.1) [] ds _]
    simp only [List.reverse_nil, List.nil_append]
    rw [parseU16_digits_ok ns hn]
    show fromStrAux .node [] ds _ = _
    rw [fromStrAux_node_end ds (hnotd ds hd.2.1) (hnota ds hd.2.1) [] _]
    simp only [List.reverse_nil, List.nil_append]
    rw [parseU16_digits_ok ds hd]
    rfl
  · intro zs ns ds ps hz hn hd hp
    show fromStrAux .zone [] (zs ++ ':' :: (ns ++ '/' :: (ds ++ '.' :: ps)))
      Address.empty = _
    rw [fromStrAux_zone_skip zs (hnotc zs hz.2.1) [] _ Address.empty]
    simp only [List.reverse_nil, List.nil_append]
    rw [parseU16_digits_ok zs hz]
    show fromStrAux .net [] (ns ++ '/' :: (ds ++ '.' :: ps)) _ = _
    rw [fromStrAux_net_skip ns (hnots ns hn.2.1) [] _ _]
    simp only [List.reverse_nil, List.nil_append]
    rw [parseU16_digits_ok ns hn]
    show fromStrAux .node [] (ds ++ '.' :: ps) _ = _
    rw [fromStrAux_node_point ds (hnotd ds hd.2.1) (hnota ds hd.2.1) [] ps _]
    simp only [List.reverse_nil, List.nil_append]
    rw [parseU16_digits_ok ds hd]
    show fromStrAux .point [] ps _ = _
    rw [fromStrAux_point_end ps (hnota ps hp.2.1) [] _]
    simp only [List.reverse_nil, List.nil_append]
    rw [parseU16_digits_ok ps hp]
    rfl
  · intro zs ns ds ps dom hz hn hd hp
    show fromStrAux .zone []
      (zs ++ ':' :: (ns ++ '/' :: (ds ++ '.' :: (ps ++ '@' :: dom)))) Address.empty = _
    rw [fromStrAux_zone_skip zs (hnotc zs hz.2.1) [] _ Address.empty]
    simp only [List.reverse_nil, List.nil_append]
    rw [parseU16_digits_ok zs hz]
    show fromStrAux .net [] (ns ++ '/' :: (ds ++ '.' :: (ps ++ '@' :: dom))) _ = _
    rw [fromStrAux_net_skip ns (hnots ns hn.2.1) [] _ _]
    simp only [List.reverse_nil, List.nil_append]
    rw [parseU16_digits_ok ns hn]
    show fromStrAux .node [] (ds ++ '.' :: (ps ++ '@' :: dom)) _ = _
    rw [fromStrAux_node_point ds (hnotd ds hd.2.1) (hnota ds hd.2.1) [] _ _]
    simp only [List.reverse_nil, List.nil_append]
    rw [parseU16_digits_ok ds hd]
    show fromStrAux .point [] (ps ++ '@' :: dom) _ = _
    rw [fromStrAux_point_domain ps (hnota ps hp.2.1) [] dom _]
    simp only [List.reverse_nil, List.nil_append]
    rw [parseU16_digits_ok ps hp]
    show fromStrAux .domain [] dom _ = _
    rw [fromStrAux_domain_all dom [] _]
    rfl
  · intro zs ns ds dom hz hn hd
    show fromStrAux .zone [] (zs ++ ':' :: (ns ++ '/' :: (ds ++ '@' :: dom)))
      Address.empty = _
    rw [fromStrAux_zone_skip zs (hnotc zs hz.2.1) [] _ Address.empty]
    simp only [List.reverse_nil, List.nil_append]
    rw [parseU16_digits_ok zs hz]
    show fromStrAux .net [] (ns ++ '/' :: (ds ++ '@' :: dom)) _ = _
    rw [fromStrAux_net_skip ns (hnots ns hn.2.1) [] _ _]
    simp only [List.reverse_nil, List.nil_append]
    rw [parseU16_digits_ok ns hn]
    show fromStrAux .node [] (ds ++ '@' :: dom) _ = _
    rw [fromStrAux_node_domain ds (hnotd ds hd.2.1) (hnota ds hd.2.1) [] dom _]
    simp only [List.reverse_nil, List.nil_append]
    rw [parseU16_digits_ok ds hd]
    show fromStrAux .domain [] dom _ = _
    rw [fromStrAux_domain_all dom [] _]
    rfl
  · intro zs rest hne hall hov
    show fromStrAux .zone [] (zs ++ ':' :: rest) Address.empty = _
    rw [fromStrAux_zone_skip zs (hnotc zs hall) [] rest Address.empty]
    simp only [List.reverse_nil, List.nil_append]
    rw [parseU16_digits_overflow zs hne hall hov]
    rfl
  · intro zs ns ds hz hn hne hall hov
    show fromStrAux .zone [] (zs ++ ':' :: (ns ++ '/' :: ds)) Address.empty = _
    rw [fromStrAux_zone_skip zs (hnotc zs hz.2.1) [] _ Address.empty]
    simp only [List.reverse_nil, List.nil_append]
    rw [parseU16_digits_ok zs hz]
    show fromStrAux .net [] (ns ++ '/' :: ds) _ = _
    rw [fromStrAux_net_skip ns (hnots ns hn.2.1) [] ds _]
    simp only [List.reverse_nil, List.nil_append]
    rw [parseU16_digits_ok ns hn]
    show fromStrAux .node [] ds _ = _
    rw [fromStrAux_node_end ds (hnotd ds hall) (hnota ds hall) [] _]
    simp only [List.reverse_nil, List.nil_append]
    rw [parseU16_digits_overflow ds hne hall hov]
    rfl
  · intro s h
    exact fromStrAux_zone_nocolon s h [] Address.empty
  · intro zs rest hz hslash
    show fromStrAux .zone [] (zs ++ ':' :: rest) Address.empty = _
    rw [fromStrAux_zone_skip zs (hnotc zs hz.2.1) [] rest Address.empty]
    simp only [List.reverse_nil, List.nil_append]
    rw [parseU16_digits_ok zs hz]
    show fromStrAux .net [] rest _ = _
    exact fromStrAux_net_end rest hslash [] _
  · intro rest
    rfl
  · intro c rest hdig hplus hcolon
    show fromStrAux .zone [] (c :: ':' :: rest) Address.empty = _
    rw [fromStrAux_zone_cons, if_neg hcolon, fromStrAux_zone_cons, if_pos rfl,
      List.reverse_singleton, parseU16_cons c [] hplus,
      show parseU16Go 0 [c] = .error .invalidFormat from by
        unfold parseU16Go
        rw [hdig]]
    rfl

/-- Claim C3 — witness at the spec's example addresses. -/
theorem c3_address_roundtrip_witness :
    Address.fromStr ("2:5020/400.100@Fidonet".toList) =
        .ok ⟨2, 5020, 400, 100, some ("Fidonet".toList)⟩ ∧
      Address.fromStr ("2:1024/123456".toList) = .error .overflow ∧
      Address.fromStr ("2:".toList) = .error .invalidFormat ∧
      Address.fromStr ("2:5020/400@".toList) = .ok ⟨2, 5020, 400, 0, some []⟩ :=
  ⟨c3_address_roundtrip.2.2.1 ['2'] ['5', '0', '2', '0'] ['4', '0', '0'] ['1', '0', '0']
      ("Fidonet".toList) (by decide) (by decide) (by decide) (by decide),
    c3_address_roundtrip.2.2.2.2.2.1 ['2'] ['1', '0', '2', '4'] ['1', '2', '3', '4', '5', '6']
      (by decide) (by decide) (by decide) (by decide) (by decide),
    c3_address_roundtrip.2.2.2.2.2.2.2.1 ['2'] [] (by decide) (by decide),
    c3_address_roundtrip.2.2.2.1 ['2'] ['5', '0', '2', '0'] ['4', '0', '0'] []
      (by decide) (by decide) (by decide)⟩
